import Mathlib

/-! # The LSH table of `flann/util/lsh_table.h`

A shallow embedding of `flann::lsh::LshTable<float>` and of the operations the
driver uses on it, and of the function `Evluation_Error_ratio` of the driver.

Conventions of the embedding.

* `float` values are rationals and every operation on them is exact; `floor`
  followed by the conversion to `int` is `Rat.floor` into `Int`.  Rounding and a
  floored value outside the range of `int` are not part of the embedding.
* A pointer into a buffer is the buffer together with an offset.  A read or a
  write outside the buffer is the fault `Fault.outOfRange`; a bare `throw;`
  outside a handler is the fault `Fault.terminate`.
* `unsigned int` sizes and `int` loop counters are natural numbers; a
  `FeatureIndex` (`uint32_t`) is a `Fin 4294967296`.
* `std::map<BucketKey, Bucket>` is a key-ordered association list.
-/

namespace flann
namespace lsh

/-! ## Basic types -/

/-- What is stored in an LSH bucket (`typedef uint32_t FeatureIndex`). -/
abbrev FeatureIndex := Fin 4294967296

/-- The id from which a bucket is got back (`typedef std::vector<int> BucketKey`). -/
abbrev BucketKey := List Int

/-- The real-valued key (`typedef std::vector<float> BucketKey_float`). -/
abbrev BucketKey_float := List ℚ

/-- A bucket in an LSH table (`typedef std::vector<FeatureIndex> Bucket`). -/
abbrev Bucket := List FeatureIndex

/-- The ways in which a call does not return normally. -/
inductive Fault where
  /-- a read or a write through a pointer outside the buffer it points into -/
  | outOfRange
  /-- a bare `throw;` while no exception is being handled -/
  | terminate
  /-- a load from an archive that does not hold the expected item -/
  | badArchive
  deriving DecidableEq, Repr

deriving instance DecidableEq for Except

/-- The storage policies (`enum SpeedLevel`). -/
inductive SpeedLevel where
  | kArray
  | kBitsetHash
  | kHash
  deriving DecidableEq, Repr

/-! ## `std::map<BucketKey, Bucket>` -/

/-- The order of `std::vector<int>` keys, `std::lexicographical_compare`. -/
def keyLess : BucketKey → BucketKey → Bool
  | [], [] => false
  | [], _ :: _ => true
  | _ :: _, [] => false
  | a :: as, b :: bs => if a < b then true else if b < a then false else keyLess as bs

/-- The container `BucketsSpace` (`std::map<BucketKey, Bucket>`): the (key, bucket)
pairs in iteration order. -/
abbrev BucketsSpace := List (BucketKey × Bucket)

namespace BucketsSpace

/-- The method `std::map::find`: the bucket stored under `key`, `none` for `end()`. -/
def find (m : BucketsSpace) (key : BucketKey) : Option Bucket :=
  match m with
  | [] => none
  | (k, b) :: rest => if k = key then some b else find rest key

/-- The place of a new pair: before the first stored key that is greater. -/
def insertOrdered (key : BucketKey) (b : Bucket) : BucketsSpace → BucketsSpace
  | [] => [(key, b)]
  | (k, b') :: rest =>
    if keyLess key k then (key, b) :: (k, b') :: rest
    else (k, b') :: insertOrdered key b rest

/-- The lookup half of `std::map::operator[]`: a pair with an empty bucket is inserted when
`key` is not stored, and the map is left as it is when it is. -/
def subscript (m : BucketsSpace) (key : BucketKey) : BucketsSpace :=
  match find m key with
  | some _ => m
  | none => insertOrdered key [] m

/-- The call `push_back(value)` on the bucket stored under `key`. -/
def pushBackAt (key : BucketKey) (value : FeatureIndex) : BucketsSpace → BucketsSpace
  | [] => []
  | (k, b) :: rest =>
    if k = key then (k, b ++ [value]) :: rest
    else (k, b) :: pushBackAt key value rest

/-- The method `std::map::size`. -/
def size (m : BucketsSpace) : Nat := m.length

end BucketsSpace

/-! ## `flann::Matrix<float>` -/

/-- The class `Matrix<float>` of `flann/util/matrix.h`.  The header is not among the sources;
the class is taken as the driver uses it: `Matrix<T>(data, rows, cols)` wraps a buffer of
`rows * cols` elements (`Matrix<int> indices(new int[query.rows*nn], query.rows, nn)`), and
`m[i]` points at row `i`, which holds the `cols` elements `m[i] + 0 .. m[i] + (cols - 1)`
(`*(truth[i] + j)` for `j < nn`, `dataset[..]` walked for `dataset.cols` steps). -/
structure Matrix where
  /-- the buffer `data` points at -/
  data : List ℚ
  rows : Nat
  cols : Nat
  deriving DecidableEq, Repr

namespace Matrix

/-- The offset in the buffer of the element `m[index] + k`. -/
def cell (m : Matrix) (index k : Nat) : Nat := index * m.cols + k

/-- The read `*(m[index] + k)`. -/
def read (m : Matrix) (index k : Nat) : Except Fault ℚ :=
  match m.data[m.cell index k]? with
  | some x => .ok x
  | none => .error .outOfRange

/-- The write `*(m[index] + k) = x`. -/
def write (m : Matrix) (index k : Nat) (x : ℚ) : Except Fault Matrix :=
  if m.cell index k < m.data.length then
    .ok { m with data := m.data.set (m.cell index k) x }
  else .error .outOfRange

end Matrix

/-- The read `*(feature + k)` of a feature that holds `feature.length` floats. -/
def readFeature (feature : List ℚ) (k : Nat) : Except Fault ℚ :=
  match feature[k]? with
  | some x => .ok x
  | none => .error .outOfRange

/-! ## The random source of the constructor -/

/-- The generator `gen` with the two distributions of the constructor: `a_norm n` is the
value the `n`-th call `a_norm(gen)` returns (counted from 0) and `b_unif` the value the call
`b_unif(gen)` after them returns. -/
structure RandomSource where
  a_norm : Nat → ℚ
  b_unif : ℚ

/-! ## The table -/

/-- The data members of `LshTable<float>`. -/
structure LshTable where
  buckets_speed_ : List Bucket
  buckets_space_ : BucketsSpace
  speed_level_ : SpeedLevel
  key_bitset_ : List Bool
  key_size_ : Nat
  mask_ : List Nat
  probe_ : List Nat
  Hash_Matrix_ : Matrix
  Hash_Bias_ : ℚ
  vec_len : Nat
  Hash_W_ : ℚ
  deriving DecidableEq, Repr

namespace LshTable

/-- The members as they are when a constructor body starts: the containers empty and the
matrix without a buffer.  The scalar members have no initial value in the source; the
constructor of the float table assigns each of them before it is read. -/
def blank : LshTable :=
  { buckets_speed_ := [], buckets_space_ := [], speed_level_ := .kArray, key_bitset_ := [],
    key_size_ := 0, mask_ := [], probe_ := [], Hash_Matrix_ := ⟨[], 0, 0⟩, Hash_Bias_ := 0,
    vec_len := 0, Hash_W_ := 0 }

/-- The member function `initialize(key_size)`. -/
def initialize_ (t : LshTable) (key_size : Nat) : LshTable :=
  { t with speed_level_ := .kHash, key_size_ := key_size }

/-- The inner loop of the constructor, `for (k = 0; k < vec_len; k++)
*(Hash_Matrix_[j] + k) = a_norm(gen);`, over the matrix and the number of draws made. -/
def fillRow (gen : RandomSource) (vec_len j : Nat) (st : Matrix × Nat) :
    Except Fault (Matrix × Nat) :=
  (List.range vec_len).foldlM
    (fun st k => do
      let m ← st.1.write j k (gen.a_norm st.2)
      pure (m, st.2 + 1))
    st

/-- The constructor `LshTable<float>::LshTable(feature_size, subsignature_size)`.  The buffer
`new float[vec_len * M]` starts with indeterminate contents in the source and with zeros here;
`getKey` reads the cells that the loops have written and no other. -/
def construct (feature_size subsignature_size : Nat) (gen : RandomSource) :
    Except Fault LshTable := do
  let t := initialize_ blank subsignature_size
  let M := subsignature_size
  let vec_len := feature_size
  let fresh : Matrix := ⟨List.replicate (vec_len * M) 0, vec_len, M⟩
  let st ← (List.range M).foldlM (fun st j => fillRow gen vec_len j st) (fresh, 0)
  pure { t with Hash_W_ := 1000, vec_len := vec_len, Hash_Matrix_ := st.1,
                Hash_Bias_ := gen.b_unif }

/-- The inner loop of `getKey`, `sum_upper += *(Hash_Matrix_[j] + k) * *(feature + k)` for
`k < vec_len`, from `sum_upper = 0`. -/
def dotRow (t : LshTable) (feature : List ℚ) (j : Nat) : Except Fault ℚ :=
  (List.range t.vec_len).foldlM
    (fun sum_upper k => do
      let a ← t.Hash_Matrix_.read j k
      let x ← readFeature feature k
      pure (sum_upper + a * x))
    0

/-- The member function `LshTable<float>::getKey(feature)`. -/
def getKey (t : LshTable) (feature : List ℚ) : Except Fault BucketKey_float :=
  (List.range t.key_size_).mapM fun j => do
    let sum_upper ← t.dotRow feature j
    pure ((sum_upper + t.Hash_Bias_) / t.Hash_W_)

/-- The key that `add` builds from `getKey`: `key[i] = floor(key_float[i])` for
`i < key_size_`. -/
def computeKey (t : LshTable) (feature : List ℚ) : Except Fault BucketKey := do
  let key_float ← t.getKey feature
  pure (key_float.map Rat.floor)

/-- The member function `add(value, feature)`. -/
def add (t : LshTable) (value : FeatureIndex) (feature : List ℚ) : Except Fault LshTable := do
  let key ← t.computeKey feature
  match t.speed_level_ with
  | .kArray => .error .terminate
  | .kBitsetHash => .error .terminate
  | .kHash =>
    pure { t with buckets_space_ := (t.buckets_space_.subscript key).pushBackAt key value }

/-- The member function `getBucketFromKey(key)`: `none` is the null pointer. -/
def getBucketFromKey (t : LshTable) (key : BucketKey) : Except Fault (Option Bucket) :=
  match t.speed_level_ with
  | .kArray => .error .terminate
  | .kBitsetHash => .error .terminate
  | .kHash => .ok (t.buckets_space_.find key)

/-- The member function `usedMemory()`. -/
def usedMemory (t : LshTable) : Nat := t.buckets_space_.size

/-- A sequence of calls `add(value, feature)`, in order. -/
def addAll (t : LshTable) : List (FeatureIndex × List ℚ) → Except Fault LshTable
  | [] => .ok t
  | (value, feature) :: rest =>
    match t.add value feature with
    | .ok t' => addAll t' rest
    | .error e => .error e

/-- The member function `optimize()`: the whole body is commented out in the source. -/
def optimize (t : LshTable) : LshTable := t

/-- The member function `add(features)`: every pair is added in order, its `size_t` first
component converted to the `unsigned int` parameter of `add`, and `optimize()` is called. -/
def add_features (t : LshTable) (features : List (Nat × List ℚ)) : Except Fault LshTable := do
  let t' ← features.foldlM
    (fun t p => t.add ⟨p.1 % 4294967296, Nat.mod_lt _ (by decide)⟩ p.2) t
  pure t'.optimize

/-- The calls a client makes on a table. -/
inductive Call where
  | add (value : FeatureIndex) (feature : List ℚ)
  | add_features (features : List (Nat × List ℚ))
  | optimize
  | getBucketFromKey (key : BucketKey)

/-- The table after one call that returned.  `getBucketFromKey` is a `const` member function
that only reads the map through `find`: it leaves the table as it found it. -/
def exec (t : LshTable) : Call → Except Fault LshTable
  | .add value feature => t.add value feature
  | .add_features features => t.add_features features
  | .optimize => .ok t.optimize
  | .getBucketFromKey key => do
    let _ ← t.getBucketFromKey key
    pure t

/-- A sequence of client calls, in order; it stops at the first call that does not return. -/
def run (t : LshTable) : List Call → Except Fault LshTable
  | [] => .ok t
  | c :: rest =>
    match t.exec c with
    | .ok t' => run t' rest
    | .error e => .error e

/-- The primary template's constructor `LshTable(unsigned int, unsigned int)`, the one of every
element type without a specialization: it writes a message to `std::cerr` and executes a bare
`throw;`. -/
def construct_generic (_feature_size _key_size : Nat) : Except Fault LshTable :=
  .error .terminate

/-- The primary template's `getKey(const ElementType*)`: a message to `std::cerr` and a bare
`throw;`; the `return 1;` after it is not reached. -/
def getKey_generic {ElementType : Type} (_t : LshTable) (_feature : List ElementType) :
    Except Fault BucketKey_float :=
  .error .terminate

/-- The value that the constructor draws for hash function `j` and coordinate `k`: the loops
run `j` outside and `k < vec_len` inside and call `a_norm(gen)` once in each round, so the round
of `(j, k)` makes the draw number `j * vec_len + k`. -/
def drawnFor (gen : RandomSource) (vec_len j k : Nat) : ℚ := gen.a_norm (j * vec_len + k)

/-- Every matrix element that `getKey` reads lies in the buffer of the matrix. -/
def ReadsInRange (t : LshTable) : Prop :=
  ∀ j, j < t.key_size_ → ∀ k, k < t.vec_len →
    t.Hash_Matrix_.cell j k < t.Hash_Matrix_.data.length

/-- The weight `*(Hash_Matrix_[j] + k)` that `getKey` reads for hash function `j` and
coordinate `k`, where the read is in range. -/
def weight (t : LshTable) (j k : Nat) : ℚ :=
  t.Hash_Matrix_.data.getD (t.Hash_Matrix_.cell j k) 0

end LshTable

/-! ## The archive of `serialize` -/

/-- One stored member of a table. -/
inductive Item where
  | int (v : Int)
  | uint (v : Nat)
  | sizes (v : List Nat)
  | speed (v : List Bucket)
  | space (v : BucketsSpace)
  | bitset (v : List Bool)
  deriving DecidableEq, Repr

/-- Modelled from the spec: the archive classes of `flann/util/serialization.h` are not
among the sources.  An archive is the sequence of stored members together with its direction
(`Archive::is_saving`, `Archive::is_loading`); the layout is private and the requirement on it
is round-trip fidelity with the same implementation, so a load hands back the member that the
save at the same position stored. -/
structure Archive where
  is_saving : Bool
  items : List Item
  deriving DecidableEq, Repr

namespace Archive

/-- The flag `Archive::is_loading::value`. -/
def is_loading (ar : Archive) : Bool := !ar.is_saving

/-- Modelled from the spec: the operator `ar & x` of the archive classes, which are not among
the sources.  A saving archive appends the member and leaves `x`; a loading archive takes the
next stored member for `x`, and faults when there is none or it is of another type. -/
def amp {α : Type} (inj : α → Item) (proj : Item → Option α) (ar : Archive) (x : α) :
    Except Fault (Archive × α) :=
  if ar.is_saving then .ok ({ ar with items := ar.items ++ [inj x] }, x)
  else
    match ar.items with
    | [] => .error .badArchive
    | y :: rest =>
      match proj y with
      | some v => .ok ({ ar with items := rest }, v)
      | none => .error .badArchive

/-- The operator `ar & x` at each type of member that `serialize` stores. -/
def ampInt := amp Item.int (fun y => match y with | .int v => some v | _ => none)
def ampUInt := amp Item.uint (fun y => match y with | .uint v => some v | _ => none)
def ampSizes := amp Item.sizes (fun y => match y with | .sizes v => some v | _ => none)
def ampSpeed := amp Item.speed (fun y => match y with | .speed v => some v | _ => none)
def ampSpace := amp Item.space (fun y => match y with | .space v => some v | _ => none)
def ampBitset := amp Item.bitset (fun y => match y with | .bitset v => some v | _ => none)

end Archive

namespace SpeedLevel

/-- The conversion `(int)speed_level_`. -/
def toInt : SpeedLevel → Int
  | .kArray => 0
  | .kBitsetHash => 1
  | .kHash => 2

/-- The conversion `(SpeedLevel) val`, for a value that names a policy. -/
def ofInt (val : Int) : Option SpeedLevel :=
  if val = 0 then some .kArray
  else if val = 1 then some .kBitsetHash
  else if val = 2 then some .kHash
  else none

end SpeedLevel

namespace LshTable

/-- The member function template `serialize(ar)`, for a saving and for a loading archive.  The
local `val` has no value before `ar & val` when loading (0 here).  A loaded policy value that
names no policy is outside the embedding: the load faults. -/
def serialize (ar : Archive) (t : LshTable) : Except Fault (Archive × LshTable) := do
  let val : Int := if ar.is_saving then t.speed_level_.toInt else 0
  let (ar, val) ← ar.ampInt val
  let t ←
    if ar.is_loading then
      match SpeedLevel.ofInt val with
      | some level => pure { t with speed_level_ := level }
      | none => .error .badArchive
    else pure t
  let (ar, key_size) ← ar.ampUInt t.key_size_
  let t := { t with key_size_ := key_size }
  let (ar, mask) ← ar.ampSizes t.mask_
  let t := { t with mask_ := mask }
  let (ar, t) ←
    if t.speed_level_ = .kArray then do
      let (ar, b) ← ar.ampSpeed t.buckets_speed_
      pure (ar, { t with buckets_speed_ := b })
    else pure (ar, t)
  let (ar, t) ←
    if t.speed_level_ = .kBitsetHash ∨ t.speed_level_ = .kHash then do
      let (ar, b) ← ar.ampSpace t.buckets_space_
      pure (ar, { t with buckets_space_ := b })
    else pure (ar, t)
  let (ar, t) ←
    if t.speed_level_ = .kBitsetHash then do
      let (ar, b) ← ar.ampBitset t.key_bitset_
      pure (ar, { t with key_bitset_ := b })
    else pure (ar, t)
  pure (ar, t)

/-- The table that a saved table is restored into: `target` is loaded from the archive that
saving `t` produced. -/
def saveThenLoad (t target : LshTable) : Except Fault LshTable := do
  let (ar, _) ← t.serialize ⟨true, []⟩
  let (_, restored) ← target.serialize ⟨false, ar.items⟩
  pure restored

/-- The indices `i_t` of the calls `add(i_t, v_t)` whose computed key is the vector `k`, in
call order and with multiplicity. -/
def addedUnder (t : LshTable) (calls : List (FeatureIndex × List ℚ)) (k : BucketKey) :
    List FeatureIndex :=
  calls.filterMap fun c => if t.computeKey c.2 = .ok k then some c.1 else none

/-- The bucket that holds `stored` followed by `added`: none when nothing is stored and nothing
is added. -/
def grown (stored : Option Bucket) (added : List FeatureIndex) : Option Bucket :=
  match added with
  | [] => stored
  | _ :: _ => some (stored.getD [] ++ added)

/-- The set of stored keys, as the list of the keys in iteration order. -/
def storedKeys (t : LshTable) : List BucketKey := t.buckets_space_.map Prod.fst

/-- The keys `key(v_1), ..., key(v_n)` of a sequence of calls `add(i_t, v_t)`, in call order;
a call whose key cannot be computed contributes none. -/
def keysOf (t : LshTable) (calls : List (FeatureIndex × List ℚ)) : List BucketKey :=
  calls.filterMap fun c =>
    match t.computeKey c.2 with
    | .ok key => some key
    | .error _ => none

/-- The projection parameters of a table: the matrix, the bias, `W`, `M` and `D`. -/
def params (t : LshTable) : Matrix × ℚ × ℚ × Nat × Nat :=
  (t.Hash_Matrix_, t.Hash_Bias_, t.Hash_W_, t.key_size_, t.vec_len)

/-- Two keys agree in the components `0 .. M - 1`. -/
def sameKey (M : Nat) (a b : BucketKey) : Bool :=
  (List.range M).all fun j => a[j]? == b[j]?

/-- The indices `i_t` of the calls `add(i_t, v_t)` whose key agrees with `k` in all `M`
components, in call order and with multiplicity. -/
def indicesWithKey (t : LshTable) (calls : List (FeatureIndex × List ℚ)) (k : BucketKey) :
    List FeatureIndex :=
  calls.filterMap fun c =>
    match t.computeKey c.2 with
    | .ok key => if sameKey t.key_size_ key k then some c.1 else none
    | .error _ => none

/-- The member function `add(value, feature, vec_len)`: the key is computed as in
`add(value, feature)` and the body ends there. -/
def add_vec_len (t : LshTable) (_value : FeatureIndex) (feature : List ℚ) (_vec_len : Nat) :
    Except Fault LshTable := do
  let _key ← t.computeKey feature
  pure t

end LshTable

/-! ## The evaluation of the driver -/

/-- The class `Matrix<int>`, laid out as `Matrix<float>`: rows of `cols` elements. -/
structure IntMatrix where
  data : List Int
  rows : Nat
  cols : Nat
  deriving DecidableEq, Repr

namespace IntMatrix

/-- The offset in the buffer of the element `m[index] + k`. -/
def cell (m : IntMatrix) (index k : Nat) : Nat := index * m.cols + k

/-- The read `*(m[index] + k)`. -/
def read (m : IntMatrix) (index k : Nat) : Except Fault Int :=
  match m.data[m.cell index k]? with
  | some x => .ok x
  | none => .error .outOfRange

/-- The element `m[index] + k` where the read is in range. -/
def valueAt (m : IntMatrix) (index k : Nat) : Int := m.data.getD (m.cell index k) 0

end IntMatrix

namespace Matrix

/-- The read `*(m[index] + k)` for an index that is an `int`: the element at the offset
`index * cols + k`, which is before the buffer when it is negative. -/
def readAt (m : Matrix) (index : Int) (k : Nat) : Except Fault ℚ :=
  if 0 ≤ index * m.cols + k then
    match m.data[(index * m.cols + k).toNat]? with
    | some x => .ok x
    | none => .error .outOfRange
  else .error .outOfRange

/-- The element `m[index] + k` is inside the buffer. -/
def InRangeAt (m : Matrix) (index : Int) (k : Nat) : Prop :=
  0 ≤ index * m.cols + k ∧ (index * m.cols + k).toNat < m.data.length

/-- The element `m[index] + k` where the read is in range. -/
def valueAt (m : Matrix) (index : Int) (k : Nat) : ℚ :=
  m.data.getD (index * m.cols + k).toNat 0

/-- The element `m[index] + k` for a row counter, where the read is in range. -/
def value (m : Matrix) (index k : Nat) : ℚ := m.data.getD (m.cell index k) 0

end Matrix

/-- The loop over `k < dataset.cols` of `Evluation_Error_ratio`: the pair of `distance_truth`
and `distance_result`, each the sum of the squared differences `diff * diff`. -/
def distancesLoop (dataset query : Matrix) (truth_index result_index : Int) (i : Nat) :
    Except Fault (ℚ × ℚ) :=
  (List.range dataset.cols).foldlM
    (fun (d : ℚ × ℚ) k => do
      let truth_value ← dataset.readAt truth_index k
      let query_value ← query.read i k
      let diff_truth := truth_value - query_value
      let result_value ← dataset.readAt result_index k
      let diff_result := result_value - query_value
      pure (d.1 + diff_truth * diff_truth, d.2 + diff_result * diff_result))
    (0, 0)

/-- The loop over `j < nn` of `Evluation_Error_ratio` for the query `i`: a stored result
`-842150451` is set to 0, and `distance_result / distance_truth` is added to `error_ratio`. -/
def neighbourLoop (truth result : IntMatrix) (nn : Int) (dataset query : Matrix) (i : Nat)
    (error_ratio : ℚ) : Except Fault ℚ :=
  (List.range nn.toNat).foldlM
    (fun error_ratio j => do
      let truth_index ← truth.read i j
      let stored ← result.read i j
      let result_index := if stored = -842150451 then 0 else stored
      let distances ← distancesLoop dataset query truth_index result_index i
      pure (error_ratio + distances.2 / distances.1))
    error_ratio

/-- The function `Evluation_Error_ratio` of the driver, from the two matrices that
`load_from_file` has read from the files `GroundTruth` and `Result` on.  A division by a
distance 0 is outside the embedding. -/
def Evluation_Error_ratio (truth result : IntMatrix) (nn : Int) (dataset query : Matrix) :
    Except Fault ℚ := do
  let error_ratio ← (List.range truth.rows).foldlM
    (fun error_ratio i => neighbourLoop truth result nn dataset query i error_ratio) 0
  pure (error_ratio / (truth.rows : ℚ) / (nn : ℚ))

/-- The index that `Evluation_Error_ratio` uses for the stored result `result[i][j]`: the value
`-842150451` is replaced by 0. -/
def resultIndex (result : IntMatrix) (i j : Nat) : Int :=
  if result.valueAt i j = -842150451 then 0 else result.valueAt i j

/-- The sum over the coordinates `k < dataset.cols` of the squared difference between row
`index` of the dataset and row `i` of the queries. -/
def squaredDistance (dataset query : Matrix) (index : Int) (i : Nat) : ℚ :=
  ((List.range dataset.cols).map fun k =>
    (dataset.valueAt index k - query.value i k) * (dataset.valueAt index k - query.value i k)).sum

/-- The number `d` is the L2 distance between row `index` of the dataset and row `i` of the
queries: it is not negative and its square is the sum of the squared differences. -/
def IsL2Distance (dataset query : Matrix) (index : Int) (i : Nat) (d : ℚ) : Prop :=
  0 ≤ d ∧ d * d = squaredDistance dataset query index i

/-- The average over the queries `i < truth.rows` and the ranks `j < nn` of the squared
distance from query `i` to the retrieved neighbour divided by the squared distance from query
`i` to the true neighbour. -/
def averageSquaredRatio (truth result : IntMatrix) (nn : Int) (dataset query : Matrix) : ℚ :=
  ((List.range truth.rows).map fun i =>
    ((List.range nn.toNat).map fun j =>
      squaredDistance dataset query (resultIndex result i j) i /
        squaredDistance dataset query (truth.valueAt i j) i).sum).sum
    / (truth.rows : ℚ) / (nn : ℚ)

/-- Every read that `Evluation_Error_ratio` makes is inside the buffer it reads from. -/
def EvalInRange (truth result : IntMatrix) (nn : Int) (dataset query : Matrix) : Prop :=
  ∀ i, i < truth.rows → ∀ j, j < nn.toNat →
    truth.cell i j < truth.data.length ∧ result.cell i j < result.data.length ∧
    ∀ k, k < dataset.cols →
      dataset.InRangeAt (truth.valueAt i j) k ∧ dataset.InRangeAt (resultIndex result i j) k ∧
      query.cell i k < query.data.length

/-! ## Element types -/

/-- The element types a table is instantiated at: `float`, which has specializations of the
constructor and of `getKey`, and the types that have none. -/
inductive ElementType where
  | float
  | unsigned_char
  | other (name : String)
  deriving DecidableEq, Repr

namespace ElementType

/-- The constructor `LshTable<E>::LshTable(feature_size, key_size)` that overload resolution
and specialization select at the element type `E`. -/
def construct (E : ElementType) (feature_size key_size : Nat) (gen : RandomSource) :
    Except Fault LshTable :=
  match E with
  | .float => LshTable.construct feature_size key_size gen
  | _ => LshTable.construct_generic feature_size key_size

/-- The member function `LshTable<E>::getKey(feature)` at the element type `E`. -/
def getKey (E : ElementType) (t : LshTable) (feature : List ℚ) : Except Fault BucketKey_float :=
  match E with
  | .float => t.getKey feature
  | _ => LshTable.getKey_generic t feature

end ElementType

/-! ## A concrete table -/

/-- A random source whose draws 0 and 6 are 1 and whose other draws and bias are 0. -/
def sampleGen : RandomSource := ⟨fun n => if n = 0 then 1 else if n = 6 then 1 else 0, 0⟩

/-- The table that the constructor builds for `D = 4`, `M = 2` from `sampleGen`. -/
def sampleTable : LshTable :=
  { buckets_speed_ := [], buckets_space_ := [], speed_level_ := .kHash, key_bitset_ := [],
    key_size_ := 2, mask_ := [], probe_ := [],
    Hash_Matrix_ := ⟨[1, 0, 0, 0, 1, 0, 0, 0], 4, 2⟩, Hash_Bias_ := 0, vec_len := 4,
    Hash_W_ := 1000 }

/-- Three calls of `add` whose keys on `sampleTable` are (0,0), (0,0) and (1,2). -/
def sampleCalls : List (FeatureIndex × List ℚ) :=
  [(10, [0, 0, 0, 0]), (11, [1, 2, 3, 4]), (12, [1000, 0, 2000, 0])]

/-- The table `sampleTable` after `sampleCalls`. -/
def sampleFilled : LshTable :=
  { sampleTable with buckets_space_ := [([0, 0], [10, 11]), ([1, 2], [12])] }

/-- A random source whose `n`-th draw is `n`. -/
def countingGen : RandomSource := ⟨fun n => (n : ℚ), 0⟩

/-- The table `sampleTable` after the first of `sampleCalls`. -/
def sampleAfterOne : LshTable :=
  { sampleTable with buckets_space_ := [([0, 0], [10])] }

/-- The table `sampleFilled` with the policy tag `kArray`. -/
def sampleArray : LshTable := { sampleFilled with speed_level_ := .kArray }

/-- The table `sampleFilled` with the policy tag `kBitsetHash`. -/
def sampleBitset : LshTable := { sampleFilled with speed_level_ := .kBitsetHash }

/-- The table that loading the archive of `sampleFilled` into `blank` gives. -/
def sampleRestored : LshTable :=
  { LshTable.blank with
    speed_level_ := SpeedLevel.kHash
    key_size_ := 2
    buckets_space_ := [([0, 0], [10, 11]), ([1, 2], [12])] }

/-- The table `sampleTable` after `add(10, [0, 0, 0, 0, 7])`. -/
def sampleAfterLong : LshTable :=
  { sampleTable with buckets_space_ := [([0, 0], [10])] }

/-- A run of client calls on `sampleTable` that ends in `sampleFilled`. -/
def sampleRun : List LshTable.Call :=
  [.add 10 [0, 0, 0, 0], .getBucketFromKey [0, 0], .optimize,
    .add_features [(11, [1, 2, 3, 4]), (12, [1000, 0, 2000, 0])], .getBucketFromKey [9, 9]]

/-- A dataset of three points on a line, 0, 2 and 1. -/
def lineDataset : Matrix := ⟨[0, 2, 1], 3, 1⟩

/-- One query, the point 0. -/
def lineQuery : Matrix := ⟨[0], 1, 1⟩

/-- The ground truth of `lineQuery` for one neighbour: the point 1, at row 2. -/
def lineTruth : IntMatrix := ⟨[2], 1, 1⟩

/-- A result for `lineQuery`: the point 2, at row 1. -/
def lineResult : IntMatrix := ⟨[1], 1, 1⟩

/-! ## Lemmas on the map -/

namespace BucketsSpace

theorem find_insertOrdered_same (key : BucketKey) (b : Bucket) (m : BucketsSpace)
    (h : find m key = none) : find (insertOrdered key b m) key = some b := by
  induction m with
  | nil => simp [insertOrdered, find]
  | cons p rest ih =>
    obtain ⟨k, b'⟩ := p
    by_cases hk : k = key
    · simp [find, hk] at h
    · simp only [find, hk, if_false] at h
      by_cases hl : keyLess key k = true
      · simp [insertOrdered, hl, find]
      · simp [insertOrdered, hl, find, hk, ih h]

theorem find_insertOrdered_other (key key' : BucketKey) (b : Bucket) (m : BucketsSpace)
    (hne : key' ≠ key) : find (insertOrdered key b m) key' = find m key' := by
  induction m with
  | nil => simp [insertOrdered, find, Ne.symm hne]
  | cons p rest ih =>
    obtain ⟨k, b'⟩ := p
    by_cases hl : keyLess key k = true
    · simp [insertOrdered, hl, find, Ne.symm hne]
    · simp [insertOrdered, hl, find, ih]

theorem find_pushBackAt (key key' : BucketKey) (value : FeatureIndex) (m : BucketsSpace) :
    find (pushBackAt key value m) key' =
      if key' = key then (find m key).map (fun b => b ++ [value]) else find m key' := by
  induction m with
  | nil => simp [pushBackAt, find]
  | cons p rest ih =>
    obtain ⟨k, b'⟩ := p
    by_cases hk : k = key
    · subst hk
      by_cases hk' : key' = k
      · subst hk'
        simp [pushBackAt, find]
      · simp [pushBackAt, find, hk', Ne.symm hk']
    · by_cases hk' : key' = key
      · subst hk'
        simp [pushBackAt, find, hk, ih]
      · simp only [pushBackAt, hk, if_false, find, ih, hk']

/-- The effect of `m[key].push_back(value)` on every lookup. -/
theorem find_subscript_pushBackAt (key key' : BucketKey) (value : FeatureIndex)
    (m : BucketsSpace) :
    find ((subscript m key).pushBackAt key value) key' =
      if key' = key then some ((find m key).getD [] ++ [value]) else find m key' := by
  rw [find_pushBackAt]
  by_cases hk' : key' = key
  · subst hk'
    simp only [if_true]
    cases h : find m key' with
    | none => simp [subscript, h, find_insertOrdered_same _ _ _ h]
    | some b => simp [subscript, h]
  · simp only [hk', if_false]
    cases h : find m key with
    | none => simp [subscript, h, find_insertOrdered_other _ _ _ _ hk']
    | some b => simp [subscript, h]

theorem keys_pushBackAt (key : BucketKey) (value : FeatureIndex) (m : BucketsSpace) :
    (pushBackAt key value m).map Prod.fst = m.map Prod.fst := by
  induction m with
  | nil => rfl
  | cons p rest ih =>
    obtain ⟨k, b⟩ := p
    by_cases hk : k = key
    · simp [pushBackAt, hk]
    · simp [pushBackAt, hk, ih]

theorem keys_insertOrdered (key : BucketKey) (b : Bucket) (m : BucketsSpace) :
    ((insertOrdered key b m).map Prod.fst).Perm (key :: m.map Prod.fst) := by
  induction m with
  | nil => simp [insertOrdered]
  | cons p rest ih =>
    obtain ⟨k, b'⟩ := p
    by_cases hl : keyLess key k = true
    · simp [insertOrdered, hl]
    · simp only [insertOrdered, hl, List.map_cons, Bool.false_eq_true, if_false]
      exact (List.Perm.cons k ih).trans (List.Perm.swap key k _)

theorem mem_keys_of_find (key : BucketKey) (b : Bucket) (m : BucketsSpace)
    (h : find m key = some b) : key ∈ m.map Prod.fst := by
  induction m with
  | nil => simp [find] at h
  | cons p rest ih =>
    obtain ⟨k, b'⟩ := p
    by_cases hk : k = key
    · simp [hk]
    · simp only [find, hk, if_false] at h
      simp [ih h]

/-- The stored keys after `m[key].push_back(value)`: those of before, and `key` once more
when it was not stored. -/
theorem keys_subscript_pushBackAt (key : BucketKey) (value : FeatureIndex) (m : BucketsSpace) :
    (((subscript m key).pushBackAt key value).map Prod.fst = m.map Prod.fst ∧
        key ∈ m.map Prod.fst) ∨
      (((subscript m key).pushBackAt key value).map Prod.fst).Perm (key :: m.map Prod.fst) := by
  rw [keys_pushBackAt]
  cases h : find m key with
  | none => right; simp only [subscript, h]; exact keys_insertOrdered key [] m
  | some b => left; simp only [subscript, h]; exact ⟨trivial, mem_keys_of_find key b m h⟩

theorem find_eq_none_iff (key : BucketKey) (m : BucketsSpace) :
    find m key = none ↔ key ∉ m.map Prod.fst := by
  induction m with
  | nil => simp [find]
  | cons p rest ih =>
    obtain ⟨k, b⟩ := p
    by_cases hk : k = key
    · simp [find, hk]
    · simp [find, hk, ih, Ne.symm hk]

/-- The stored keys after `m[key].push_back(value)`, by whether `key` was stored. -/
theorem keys_after_push (key : BucketKey) (value : FeatureIndex) (m : BucketsSpace) :
    (key ∈ m.map Prod.fst →
        ((subscript m key).pushBackAt key value).map Prod.fst = m.map Prod.fst) ∧
      (key ∉ m.map Prod.fst →
        (((subscript m key).pushBackAt key value).map Prod.fst).Perm (key :: m.map Prod.fst)) := by
  rw [keys_pushBackAt]
  constructor
  · intro hmem
    cases h : find m key with
    | none => exact absurd hmem ((find_eq_none_iff key m).mp h)
    | some b => simp only [subscript, h]
  · intro hmem
    have h := (find_eq_none_iff key m).mpr hmem
    simp only [subscript, h]
    exact keys_insertOrdered key [] m

end BucketsSpace

/-! ## Lemmas on loops that may fault -/

theorem foldlM_error {σ α : Type} (f : σ → α → Except Fault σ) (e : Fault) (l : List α)
    (honly : ∀ s x e', x ∈ l → f s x = .error e' → e' = e)
    (hbad : ∃ x ∈ l, ∀ s, ∃ e', f s x = .error e') :
    ∀ s, l.foldlM f s = .error e := by
  induction l with
  | nil => obtain ⟨x, hx, _⟩ := hbad; cases hx
  | cons x rest ih =>
    intro s
    simp only [List.foldlM, bind, Except.bind]
    cases h1 : f s x with
    | error e' =>
      rw [honly s x e' (List.mem_cons_self _ _) h1]
    | ok s1 =>
      obtain ⟨y, hy, hyb⟩ := hbad
      rcases List.mem_cons.mp hy with rfl | hy'
      · obtain ⟨e', he'⟩ := hyb s
        rw [h1] at he'
        cases he'
      · exact ih (fun s z e' hz hf => honly s z e' (List.mem_cons_of_mem _ hz) hf)
          ⟨y, hy', hyb⟩ s1

theorem foldlM_ok_of {σ α : Type} (f : σ → α → Except Fault σ) (Inv : σ → Prop) (l : List α)
    (hstep : ∀ s x, x ∈ l → Inv s → ∃ s', f s x = .ok s' ∧ Inv s') :
    ∀ s, Inv s → ∃ s', l.foldlM f s = .ok s' ∧ Inv s' := by
  induction l with
  | nil => intro s hs; exact ⟨s, rfl, hs⟩
  | cons x rest ih =>
    intro s hs
    obtain ⟨s1, h1, hs1⟩ := hstep s x (List.mem_cons_self _ _) hs
    obtain ⟨s2, h2, hs2⟩ :=
      ih (fun s y hy hI => hstep s y (List.mem_cons_of_mem _ hy) hI) s1 hs1
    refine ⟨s2, ?_, hs2⟩
    simp only [List.foldlM, h1, bind, Except.bind]
    exact h2

theorem foldlM_inv {σ α : Type} (f : σ → α → Except Fault σ) (Inv : σ → Prop) (P : α → Prop)
    (l : List α)
    (hstep : ∀ s x s', x ∈ l → Inv s → f s x = .ok s' → Inv s' ∧ P x) :
    ∀ s s', Inv s → l.foldlM f s = .ok s' → Inv s' ∧ ∀ x ∈ l, P x := by
  induction l with
  | nil =>
    intro s s' hs h
    simp only [List.foldlM, pure, Except.pure, Except.ok.injEq] at h
    subst h
    exact ⟨hs, by simp⟩
  | cons x rest ih =>
    intro s s' hs h
    simp only [List.foldlM, bind, Except.bind] at h
    cases h1 : f s x with
    | error e => rw [h1] at h; cases h
    | ok s1 =>
      rw [h1] at h
      obtain ⟨hs1, hx⟩ := hstep s x s1 (List.mem_cons_self _ _) hs h1
      obtain ⟨hs', hrest⟩ :=
        ih (fun s y s' hy hI hf => hstep s y s' (List.mem_cons_of_mem _ hy) hI hf) s1 s' hs1 h
      refine ⟨hs', ?_⟩
      intro y hy
      rcases List.mem_cons.mp hy with rfl | hy
      · exact hx
      · exact hrest y hy

theorem foldlM_eq_foldl {σ α : Type} (f : σ → α → Except Fault σ) (g : σ → α → σ)
    (l : List α) (h : ∀ s x, x ∈ l → f s x = .ok (g s x)) :
    ∀ s, l.foldlM f s = .ok (l.foldl g s) := by
  induction l with
  | nil => intro s; rfl
  | cons x rest ih =>
    intro s
    simp only [List.foldlM, List.foldl, bind, Except.bind, h s x (List.mem_cons_self _ _)]
    exact ih (fun s y hy => h s y (List.mem_cons_of_mem _ hy)) _

theorem mapM_eq_map {α β : Type} (f : α → Except Fault β) (g : α → β) (l : List α)
    (h : ∀ x, x ∈ l → f x = .ok (g x)) : l.mapM f = .ok (l.map g) := by
  induction l with
  | nil => rfl
  | cons x rest ih =>
    rw [List.mapM_cons, h x (List.mem_cons_self _ _),
      ih (fun y hy => h y (List.mem_cons_of_mem _ hy))]
    rfl

theorem mapM_ok_inv {α β : Type} (f : α → Except Fault β) (l : List α) :
    ∀ ys, l.mapM f = .ok ys → ∀ x ∈ l, ∃ y, f x = .ok y := by
  induction l with
  | nil => intro ys _ x hx; cases hx
  | cons x rest ih =>
    intro ys h y hy
    rw [List.mapM_cons] at h
    cases h1 : f x with
    | error e => rw [h1] at h; cases h
    | ok y1 =>
      rw [h1] at h
      cases h2 : rest.mapM f with
      | error e => rw [h2] at h; cases h
      | ok ys2 =>
        rcases List.mem_cons.mp hy with rfl | hy
        · exact ⟨y1, h1⟩
        · exact ih ys2 h2 y hy

theorem mapM_length {α β : Type} (f : α → Except Fault β) (l : List α) :
    ∀ ys, l.mapM f = .ok ys → ys.length = l.length := by
  induction l with
  | nil =>
    intro ys h
    rw [List.mapM_nil] at h
    cases h
    rfl
  | cons x rest ih =>
    intro ys h
    rw [List.mapM_cons] at h
    cases h1 : f x with
    | error e => rw [h1] at h; cases h
    | ok y1 =>
      rw [h1] at h
      cases h2 : rest.mapM f with
      | error e => rw [h2] at h; cases h
      | ok ys2 =>
        rw [h2] at h
        cases h
        simp [ih ys2 h2]

/-! ## Lemmas on the matrix and the constructor -/

namespace Matrix

theorem write_ok (m m' : Matrix) (j k : Nat) (x : ℚ) (h : m.write j k x = .ok m') :
    m'.data.length = m.data.length ∧ m'.cols = m.cols ∧ m.cell j k < m.data.length := by
  unfold write at h
  split at h
  · cases h
    simp_all
  · cases h

theorem read_of_lt (m : Matrix) (j k : Nat) (h : m.cell j k < m.data.length) :
    m.read j k = .ok (m.data.getD (m.cell j k) 0) := by
  unfold read
  rw [List.getElem?_eq_getElem h]
  simp [List.getD_eq_getElem?_getD, List.getElem?_eq_getElem h]

theorem read_error (m : Matrix) (j k : Nat) (e : Fault) (h : m.read j k = .error e) :
    e = .outOfRange := by
  unfold read at h
  split at h
  · cases h
  · cases h; rfl

end Matrix

theorem readFeature_error (feature : List ℚ) (k : Nat) (e : Fault)
    (h : readFeature feature k = .error e) : e = .outOfRange := by
  unfold readFeature at h
  split at h
  · cases h
  · cases h; rfl

theorem readFeature_of_lt (feature : List ℚ) (k : Nat) (h : k < feature.length) :
    readFeature feature k = .ok (feature.getD k 0) := by
  unfold readFeature
  rw [List.getElem?_eq_getElem h]
  simp [List.getD_eq_getElem?_getD, List.getElem?_eq_getElem h]

namespace LshTable

theorem fillRow_inv (gen : RandomSource) (D j : Nat) (st st' : Matrix × Nat)
    (h : fillRow gen D j st = .ok st') :
    (st'.1.data.length = st.1.data.length ∧ st'.1.cols = st.1.cols) ∧
      ∀ k ∈ List.range D, j * st.1.cols + k < st.1.data.length := by
  refine foldlM_inv _
    (fun s => s.1.data.length = st.1.data.length ∧ s.1.cols = st.1.cols)
    (fun k => j * st.1.cols + k < st.1.data.length) (List.range D) ?_ st st' ⟨rfl, rfl⟩ h
  intro s k s' _ hs hf
  simp only [bind, Except.bind] at hf
  cases hw : s.1.write j k (gen.a_norm s.2) with
  | error e => rw [hw] at hf; cases hf
  | ok m =>
    rw [hw] at hf
    cases hf
    obtain ⟨h1, h2, h3⟩ := Matrix.write_ok _ _ _ _ _ hw
    simp only [Matrix.cell] at h3
    exact ⟨⟨h1.trans hs.1, h2.trans hs.2⟩, by rw [← hs.1, ← hs.2]; exact h3⟩

/-- What a table is like when the constructor has returned. -/
theorem construct_ok (D M : Nat) (gen : RandomSource) (t : LshTable)
    (h : construct D M gen = .ok t) :
    t.speed_level_ = .kHash ∧ t.buckets_space_ = [] ∧ t.key_size_ = M ∧ t.vec_len = D ∧
      t.Hash_W_ = 1000 ∧ t.Hash_Bias_ = gen.b_unif ∧ t.Hash_Matrix_.cols = M ∧
      t.Hash_Matrix_.data.length = D * M ∧ t.ReadsInRange := by
  simp only [construct, bind, Except.bind] at h
  cases hl : (List.range M).foldlM (fun st j => fillRow gen D j st)
      ((⟨List.replicate (D * M) 0, D, M⟩ : Matrix), 0) with
  | error e => rw [hl] at h; cases h
  | ok st =>
    rw [hl] at h
    cases h
    obtain ⟨⟨h1, h2⟩, h3⟩ := foldlM_inv (fun st j => fillRow gen D j st)
      (fun s => s.1.data.length = D * M ∧ s.1.cols = M)
      (fun j => ∀ k ∈ List.range D, j * M + k < D * M) (List.range M)
      (by
        intro s j s' _ hs hf
        obtain ⟨⟨a, b⟩, c⟩ := fillRow_inv gen D j s s' hf
        refine ⟨⟨a.trans hs.1, b.trans hs.2⟩, ?_⟩
        intro k hk
        have := c k hk
        rw [hs.1, hs.2] at this
        exact this)
      _ st ⟨by simp, rfl⟩ hl
    refine ⟨rfl, rfl, rfl, rfl, rfl, rfl, h2, h1, ?_⟩
    intro j hj k hk
    simp only [Matrix.cell, h1, h2]
    exact h3 j (List.mem_range.mpr hj) k (List.mem_range.mpr hk)

/-- The constructor does not return when there are more hash functions than coordinates: the
round of `j = M - 1`, `k = 0` is outside the buffer. -/
theorem construct_faults_of_lt (D M : Nat) (gen : RandomSource) (t : LshTable)
    (hD : 0 < D) (hM : D < M) : construct D M gen ≠ .ok t := by
  intro h
  obtain ⟨_, _, hk, hv, _, _, hc, hl, hr⟩ := construct_ok D M gen t h
  have := hr (M - 1) (by rw [hk]; omega) 0 (by rw [hv]; exact hD)
  simp only [Matrix.cell, hc, hl, Nat.add_zero] at this
  have := Nat.lt_of_mul_lt_mul_right this
  omega

/-! ## Lemmas on the key -/

theorem dotRow_eq (t : LshTable) (feature : List ℚ) (j : Nat) (hj : j < t.key_size_)
    (hr : t.ReadsInRange) (hlen : t.vec_len ≤ feature.length) :
    t.dotRow feature j =
      .ok ((List.range t.vec_len).foldl (fun s k => s + t.weight j k * feature.getD k 0) 0) := by
  unfold dotRow
  apply foldlM_eq_foldl
  intro s k hk
  have hk' : k < t.vec_len := List.mem_range.mp hk
  rw [Matrix.read_of_lt _ _ _ (hr j hj k hk'),
    readFeature_of_lt _ _ (Nat.lt_of_lt_of_le hk' hlen)]
  rfl

theorem getKey_eq (t : LshTable) (feature : List ℚ) (hr : t.ReadsInRange)
    (hlen : t.vec_len ≤ feature.length) :
    t.getKey feature = .ok ((List.range t.key_size_).map fun j =>
      ((List.range t.vec_len).foldl (fun s k => s + t.weight j k * feature.getD k 0) 0
        + t.Hash_Bias_) / t.Hash_W_) := by
  unfold getKey
  apply mapM_eq_map
  intro j hj
  rw [dotRow_eq t feature j (List.mem_range.mp hj) hr hlen]
  rfl

theorem computeKey_eq (t : LshTable) (feature : List ℚ) (hr : t.ReadsInRange)
    (hlen : t.vec_len ≤ feature.length) :
    t.computeKey feature = .ok ((List.range t.key_size_).map fun j =>
      Rat.floor (((List.range t.vec_len).foldl
        (fun s k => s + t.weight j k * feature.getD k 0) 0 + t.Hash_Bias_) / t.Hash_W_)) := by
  unfold computeKey
  rw [getKey_eq t feature hr hlen]
  simp [bind, Except.bind, pure, Except.pure, Function.comp_def]

theorem computeKey_length (t : LshTable) (feature : List ℚ) (key : BucketKey)
    (h : t.computeKey feature = .ok key) : key.length = t.key_size_ := by
  unfold computeKey at h
  cases hk : t.getKey feature with
  | error e => simp [hk, bind, Except.bind] at h
  | ok kf =>
    simp only [hk, bind, Except.bind, pure, Except.pure, Except.ok.injEq] at h
    subst h
    have := mapM_length _ _ _ hk
    simpa using this

/-! ## Lemmas on `add` -/

theorem add_ok (t : LshTable) (value : FeatureIndex) (feature : List ℚ) (key : BucketKey)
    (hs : t.speed_level_ = .kHash) (hk : t.computeKey feature = .ok key) :
    t.add value feature =
      .ok { t with buckets_space_ := (t.buckets_space_.subscript key).pushBackAt key value } := by
  simp only [add, hk, bind, Except.bind, hs]
  rfl

theorem add_inv (t t' : LshTable) (value : FeatureIndex) (feature : List ℚ)
    (h : t.add value feature = .ok t') :
    t.speed_level_ = .kHash ∧ ∃ key, t.computeKey feature = .ok key ∧
      t' = { t with buckets_space_ := (t.buckets_space_.subscript key).pushBackAt key value } := by
  unfold add at h
  cases hk : t.computeKey feature with
  | error e => simp [hk, bind, Except.bind] at h
  | ok key =>
    simp only [hk, bind, Except.bind] at h
    cases hs : t.speed_level_ with
    | kArray => simp [hs] at h
    | kBitsetHash => simp [hs] at h
    | kHash =>
      simp only [hs, pure, Except.pure, Except.ok.injEq] at h
      exact ⟨rfl, key, rfl, h.symm⟩

/-- The key of a feature does not depend on the buckets. -/
theorem computeKey_buckets (t : LshTable) (m : BucketsSpace) (feature : List ℚ) :
    computeKey { t with buckets_space_ := m } feature = t.computeKey feature := rfl

/-- The table after a run of calls of `add` that all returned. -/
theorem addAll_inv (calls : List (FeatureIndex × List ℚ)) :
    ∀ t t' : LshTable, t.addAll calls = .ok t' →
      (calls ≠ [] → t.speed_level_ = .kHash) ∧ t'.speed_level_ = t.speed_level_ ∧
      (∀ f, t'.computeKey f = t.computeKey f) ∧
      ∀ k, t'.buckets_space_.find k = grown (t.buckets_space_.find k) (t.addedUnder calls k) := by
  induction calls with
  | nil =>
    intro t t' h
    simp only [addAll, Except.ok.injEq] at h
    subst h
    exact ⟨by simp, rfl, fun _ => rfl, fun _ => rfl⟩
  | cons c rest ih =>
    intro t t' h
    obtain ⟨value, feature⟩ := c
    simp only [addAll] at h
    cases h1 : t.add value feature with
    | error e => rw [h1] at h; cases h
    | ok t1 =>
      rw [h1] at h
      obtain ⟨hs, key, hk, ht1⟩ := add_inv _ _ _ _ h1
      obtain ⟨_, hs', hck, hfind⟩ := ih t1 t' h
      have hck1 : ∀ f, t1.computeKey f = t.computeKey f := by
        intro f; rw [ht1]; rfl
      refine ⟨fun _ => hs, ?_, fun f => (hck f).trans (hck1 f), ?_⟩
      · rw [hs', ht1]
      · intro k
        rw [hfind k]
        have hau : t1.addedUnder rest k = t.addedUnder rest k := by
          simp only [addedUnder, hck1]
        rw [hau]
        have hf1 : t1.buckets_space_.find k =
            if k = key then some ((t.buckets_space_.find key).getD [] ++ [value])
            else t.buckets_space_.find k := by
          rw [ht1]
          exact BucketsSpace.find_subscript_pushBackAt key k value t.buckets_space_
        rw [hf1]
        by_cases hkk : k = key
        · subst hkk
          simp only [addedUnder, List.filterMap_cons, hk, if_true]
          cases hr : List.filterMap
            (fun c : FeatureIndex × List ℚ =>
              if t.computeKey c.2 = .ok k then some c.1 else none) rest with
          | nil => simp [grown]
          | cons a as => simp [grown]
        · have hne : t.computeKey feature ≠ .ok k := by
            rw [hk]
            intro hc
            cases hc
            exact hkk rfl
          simp only [addedUnder, List.filterMap_cons, hne, if_false, hkk]

/-- A run of calls of `add` returns when every key can be computed. -/
theorem addAll_total (calls : List (FeatureIndex × List ℚ)) :
    ∀ t : LshTable, t.speed_level_ = .kHash →
      (∀ c ∈ calls, ∃ key, t.computeKey c.2 = .ok key) → ∃ t', t.addAll calls = .ok t' := by
  induction calls with
  | nil => intro t _ _; exact ⟨t, rfl⟩
  | cons c rest ih =>
    intro t hs hall
    obtain ⟨value, feature⟩ := c
    obtain ⟨key, hk⟩ := hall (value, feature) (List.mem_cons_self _ _)
    have h1 := add_ok t value feature key hs hk
    simp only [addAll, h1]
    apply ih
    · exact hs
    · intro c hc
      exact hall c (List.mem_cons_of_mem _ hc)

theorem addedUnder_mem (t : LshTable) (calls : List (FeatureIndex × List ℚ))
    (c : FeatureIndex × List ℚ) (key : BucketKey) (hc : c ∈ calls)
    (hk : t.computeKey c.2 = .ok key) : c.1 ∈ t.addedUnder calls key := by
  simp only [addedUnder, List.mem_filterMap]
  exact ⟨c, hc, by simp [hk]⟩

theorem addedUnder_eq_nil (t : LshTable) (calls : List (FeatureIndex × List ℚ))
    (k : BucketKey) (h : ∀ c ∈ calls, t.computeKey c.2 ≠ .ok k) : t.addedUnder calls k = [] := by
  simp only [addedUnder, List.filterMap_eq_nil_iff]
  intro c hc
  simp [h c hc]

theorem grown_mem (stored : Option Bucket) (added : List FeatureIndex) (i : FeatureIndex)
    (h : i ∈ added) : ∃ b, grown stored added = some b ∧ i ∈ b := by
  cases added with
  | nil => cases h
  | cons a as => exact ⟨_, rfl, List.mem_append_right _ h⟩

/-- A table that the constructor returned computes a key for every feature of `D` floats or
more. -/
theorem computeKey_total (t : LshTable) (feature : List ℚ) (hr : t.ReadsInRange)
    (hlen : t.vec_len ≤ feature.length) : ∃ key, t.computeKey feature = .ok key :=
  ⟨_, computeKey_eq t feature hr hlen⟩

/-- A run of calls of `add` on a constructed table returns. -/
theorem addAll_fresh (D M : Nat) (gen : RandomSource) (t₀ : LshTable)
    (calls : List (FeatureIndex × List ℚ)) (h0 : construct D M gen = .ok t₀)
    (hlen : ∀ c ∈ calls, D ≤ c.2.length) : ∃ t, t₀.addAll calls = .ok t := by
  obtain ⟨hs, _, _, hD, _, _, _, _, hr⟩ := construct_ok D M gen t₀ h0
  apply addAll_total calls t₀ hs
  intro c hc
  exact computeKey_total t₀ c.2 hr (by rw [hD]; exact hlen c hc)

theorem addedUnder_replicate (t : LshTable) (i : FeatureIndex) (v : List ℚ) (key : BucketKey)
    (hk : t.computeKey v = .ok key) (n : Nat) :
    t.addedUnder (List.replicate n (i, v)) key = List.replicate n i := by
  induction n with
  | zero => rfl
  | succ n ih =>
    simp only [addedUnder] at ih
    simp [addedUnder, List.replicate_succ, List.filterMap_cons, hk, ih]

theorem sameKey_iff (M : Nat) (a b : BucketKey) (ha : a.length = M) (hb : b.length = M) :
    sameKey M a b = true ↔ a = b := by
  constructor
  · intro h
    simp only [sameKey, List.all_eq_true, List.mem_range, beq_iff_eq] at h
    apply List.ext_getElem?
    intro n
    by_cases hn : n < M
    · exact h n hn
    · rw [List.getElem?_eq_none (by omega), List.getElem?_eq_none (by omega)]
  · intro h
    subst h
    simp [sameKey]

theorem indicesWithKey_eq (t : LshTable) (calls : List (FeatureIndex × List ℚ))
    (k : BucketKey) (hk : k.length = t.key_size_) :
    t.indicesWithKey calls k = t.addedUnder calls k := by
  unfold indicesWithKey addedUnder
  congr 1
  funext c
  cases hc : t.computeKey c.2 with
  | error e => simp
  | ok key =>
    have hl := computeKey_length t c.2 key hc
    by_cases hs : sameKey t.key_size_ key k = true
    · have := (sameKey_iff _ key k hl hk).mp hs
      simp only [hs, if_true]
      simp [this]
    · have hne : ¬ key = k := fun h => hs ((sameKey_iff _ key k hl hk).mpr h)
      simp [hs, hne]

theorem grown_none_eq_none (added : List FeatureIndex) :
    grown none added = none ↔ added = [] := by
  cases added <;> simp [grown]

theorem addedUnder_eq_nil_iff (t : LshTable) (calls : List (FeatureIndex × List ℚ))
    (k : BucketKey) : t.addedUnder calls k = [] ↔ ∀ c ∈ calls, t.computeKey c.2 ≠ .ok k := by
  constructor
  · intro h c hc hk
    have := addedUnder_mem t calls c k hc hk
    rw [h] at this
    cases this
  · exact addedUnder_eq_nil t calls k

/-- Calls of `add` change the buckets and nothing else. -/
theorem addAll_params (calls : List (FeatureIndex × List ℚ)) :
    ∀ t t' : LshTable, t.addAll calls = .ok t' →
      t' = { t with buckets_space_ := t'.buckets_space_ } := by
  induction calls with
  | nil =>
    intro t t' h
    simp only [addAll, Except.ok.injEq] at h
    subst h
    rfl
  | cons c rest ih =>
    intro t t' h
    obtain ⟨value, feature⟩ := c
    simp only [addAll] at h
    cases h1 : t.add value feature with
    | error e => rw [h1] at h; cases h
    | ok t1 =>
      rw [h1] at h
      obtain ⟨_, key, _, ht1⟩ := add_inv _ _ _ _ h1
      have := ih t1 t' h
      rw [this, ht1]

theorem foldl_add_eq_sum (g : Nat → ℚ) (n : Nat) :
    (List.range n).foldl (fun s k => s + g k) 0 = ∑ k in Finset.range n, g k := by
  induction n with
  | zero => rfl
  | succ n ih => rw [List.range_succ, List.foldl_append, ih, Finset.sum_range_succ]; rfl

/-! ## Lemmas on runs of `add` -/

theorem addAll_eq_foldlM (calls : List (FeatureIndex × List ℚ)) :
    ∀ t : LshTable, t.addAll calls = calls.foldlM (fun t c => t.add c.1 c.2) t := by
  induction calls with
  | nil => intro t; rfl
  | cons c rest ih =>
    intro t
    obtain ⟨value, feature⟩ := c
    simp only [addAll, List.foldlM, bind, Except.bind]
    cases t.add value feature with
    | error e => rfl
    | ok t1 => exact ih t1

theorem addAll_append (pre suf : List (FeatureIndex × List ℚ)) :
    ∀ t : LshTable, t.addAll (pre ++ suf) =
      match t.addAll pre with
      | .ok t' => t'.addAll suf
      | .error e => .error e := by
  induction pre with
  | nil => intro t; rfl
  | cons c rest ih =>
    intro t
    obtain ⟨value, feature⟩ := c
    simp only [List.cons_append, addAll]
    cases t.add value feature with
    | error e => rfl
    | ok t1 => exact ih t1

/-! ## Lemmas on features of another length -/

theorem getD_take (v : List ℚ) (n k : Nat) (hk : k < n) :
    (v.take n).getD k 0 = v.getD k 0 := by
  simp [List.getD_eq_getElem?_getD, List.getElem?_take, hk]

/-- The key is computed from the first `vec_len` components of the feature. -/
theorem computeKey_take (t : LshTable) (v : List ℚ) (hr : t.ReadsInRange)
    (hlen : t.vec_len ≤ v.length) : t.computeKey (v.take t.vec_len) = t.computeKey v := by
  rw [computeKey_eq t v hr hlen,
    computeKey_eq t (v.take t.vec_len) hr (by simp [List.length_take, hlen])]
  congr 1
  apply List.map_congr_left
  intro j _
  rw [foldl_add_eq_sum (fun k => t.weight j k * (v.take t.vec_len).getD k 0),
    foldl_add_eq_sum (fun k => t.weight j k * v.getD k 0)]
  congr 3
  apply Finset.sum_congr rfl
  intro k hk
  rw [getD_take v t.vec_len k (Finset.mem_range.mp hk)]

theorem readFeature_short (v : List ℚ) : readFeature v v.length = .error .outOfRange := by
  simp [readFeature]

theorem dotRow_short (t : LshTable) (v : List ℚ) (j : Nat) (hlen : v.length < t.vec_len) :
    t.dotRow v j = .error .outOfRange := by
  unfold dotRow
  apply foldlM_error
  · intro s k e' _ h
    simp only [bind, Except.bind] at h
    cases hr : t.Hash_Matrix_.read j k with
    | error e =>
      rw [hr] at h
      cases h
      exact Matrix.read_error _ _ _ _ hr
    | ok a =>
      rw [hr] at h
      cases hf : readFeature v k with
      | error e =>
        rw [hf] at h
        cases h
        exact readFeature_error _ _ _ hf
      | ok x => rw [hf] at h; cases h
  · refine ⟨v.length, List.mem_range.mpr hlen, ?_⟩
    intro s
    simp only [bind, Except.bind, readFeature_short]
    cases t.Hash_Matrix_.read j v.length with
    | error e => exact ⟨e, rfl⟩
    | ok a => exact ⟨_, rfl⟩

/-- A feature of fewer than `vec_len` floats is read outside its end. -/
theorem computeKey_short (t : LshTable) (v : List ℚ) (hlen : v.length < t.vec_len)
    (hM : 0 < t.key_size_) : t.computeKey v = .error .outOfRange := by
  unfold computeKey getKey
  obtain ⟨n, hn⟩ : ∃ n, t.key_size_ = n + 1 := ⟨t.key_size_ - 1, by omega⟩
  rw [hn, List.range_succ_eq_map, List.mapM_cons, dotRow_short t v 0 hlen]
  rfl

/-! ## Lemmas on the constructor at zero -/

theorem construct_zero_keys (D : Nat) (gen : RandomSource) :
    ∃ t, construct D 0 gen = .ok t := ⟨_, rfl⟩

theorem construct_zero_dim (M : Nat) (gen : RandomSource) :
    ∃ t, construct 0 M gen = .ok t := by
  have h := foldlM_eq_foldl (fun st j => fillRow gen 0 j st) (fun st _ => st) (List.range M)
    (fun s x _ => rfl) ((⟨List.replicate (0 * M) 0, 0, M⟩ : Matrix), 0)
  simp only [construct, bind, Except.bind, h]
  exact ⟨_, rfl⟩

/-! ## Lemmas on the stored keys -/

theorem add_storedKeys (t t' : LshTable) (i : FeatureIndex) (v : List ℚ) (key : BucketKey)
    (h : t.add i v = .ok t') (hk : t.computeKey v = .ok key) :
    (key ∈ t.storedKeys → t'.storedKeys = t.storedKeys) ∧
      (key ∉ t.storedKeys → t'.storedKeys.Perm (key :: t.storedKeys)) := by
  obtain ⟨_, key', hk', ht'⟩ := add_inv t t' i v h
  rw [hk] at hk'
  cases hk'
  rw [ht']
  exact BucketsSpace.keys_after_push key i t.buckets_space_

theorem add_nodup (t t' : LshTable) (i : FeatureIndex) (v : List ℚ)
    (hn : t.storedKeys.Nodup) (h : t.add i v = .ok t') : t'.storedKeys.Nodup := by
  obtain ⟨_, key, hk, _⟩ := add_inv t t' i v h
  obtain ⟨h1, h2⟩ := add_storedKeys t t' i v key h hk
  by_cases hmem : key ∈ t.storedKeys
  · rw [h1 hmem]; exact hn
  · exact (h2 hmem).nodup_iff.mpr (List.nodup_cons.mpr ⟨hmem, hn⟩)

theorem addAll_nodup (calls : List (FeatureIndex × List ℚ)) :
    ∀ t t' : LshTable, t.storedKeys.Nodup → t.addAll calls = .ok t' → t'.storedKeys.Nodup := by
  intro t t' hn h
  rw [addAll_eq_foldlM] at h
  exact (foldlM_inv _ (fun t : LshTable => t.storedKeys.Nodup) (fun _ => True) calls
    (fun s x s' _ hs hx => ⟨add_nodup s s' _ _ hs hx, trivial⟩) t t' hn h).1

theorem mem_keysOf (t : LshTable) (calls : List (FeatureIndex × List ℚ)) (k : BucketKey) :
    k ∈ t.keysOf calls ↔ ∃ c ∈ calls, t.computeKey c.2 = .ok k := by
  simp only [keysOf, List.mem_filterMap]
  constructor
  · rintro ⟨c, hc, h⟩
    refine ⟨c, hc, ?_⟩
    cases hk : t.computeKey c.2 with
    | error e => rw [hk] at h; cases h
    | ok key => rw [hk] at h; cases h; rfl
  · rintro ⟨c, hc, h⟩
    exact ⟨c, hc, by rw [h]⟩

theorem keysOf_length (t : LshTable) (calls : List (FeatureIndex × List ℚ))
    (h : ∀ c ∈ calls, ∃ key, t.computeKey c.2 = .ok key) :
    (t.keysOf calls).length = calls.length := by
  induction calls with
  | nil => rfl
  | cons c rest ih =>
    obtain ⟨key, hk⟩ := h c (List.mem_cons_self _ _)
    have := ih (fun c hc => h c (List.mem_cons_of_mem _ hc))
    simp only [keysOf] at this
    simp [keysOf, List.filterMap_cons, hk, this]

/-- After calls of `add` on a table without buckets, the stored keys are the keys of the calls,
each once. -/
theorem storedKeys_perm (t t' : LshTable) (calls : List (FeatureIndex × List ℚ))
    (he : t.buckets_space_ = []) (h : t.addAll calls = .ok t') :
    t'.storedKeys.Perm (t.keysOf calls).dedup := by
  have hn : t'.storedKeys.Nodup := addAll_nodup calls t t' (by simp [storedKeys, he]) h
  obtain ⟨_, _, _, hfind⟩ := addAll_inv calls t t' h
  refine (List.perm_ext_iff_of_nodup hn (List.nodup_dedup _)).mpr ?_
  intro k
  rw [List.mem_dedup, mem_keysOf]
  have h1 : k ∈ t'.storedKeys ↔ ¬ t'.buckets_space_.find k = none := by
    rw [BucketsSpace.find_eq_none_iff]
    simp [storedKeys]
  rw [h1, hfind k, he]
  simp only [BucketsSpace.find, grown_none_eq_none, addedUnder_eq_nil_iff]
  push_neg
  rfl

theorem add_shape (M : Nat) (t t' : LshTable) (i : FeatureIndex) (v : List ℚ)
    (hI : t.key_size_ = M ∧ ∀ k ∈ t.storedKeys, k.length = M) (h : t.add i v = .ok t') :
    t'.key_size_ = M ∧ ∀ k ∈ t'.storedKeys, k.length = M := by
  obtain ⟨_, key, hk, ht'⟩ := add_inv t t' i v h
  obtain ⟨h1, h2⟩ := add_storedKeys t t' i v key h hk
  have hkey : key.length = M := (computeKey_length t v key hk).trans hI.1
  refine ⟨by rw [ht']; exact hI.1, ?_⟩
  intro k hmem
  by_cases hin : key ∈ t.storedKeys
  · rw [h1 hin] at hmem
    exact hI.2 k hmem
  · rcases List.mem_cons.mp ((h2 hin).mem_iff.mp hmem) with rfl | hm
    · exact hkey
    · exact hI.2 k hm

/-! ## Lemmas on faults and on empty buckets -/

theorem foldlM_error_only {σ α : Type} (f : σ → α → Except Fault σ) (e : Fault) (l : List α)
    (honly : ∀ s x e', f s x = .error e' → e' = e) :
    ∀ s e', l.foldlM f s = .error e' → e' = e := by
  induction l with
  | nil => intro s e' h; cases h
  | cons x rest ih =>
    intro s e' h
    simp only [List.foldlM, bind, Except.bind] at h
    cases h1 : f s x with
    | error e1 =>
      rw [h1] at h
      cases h
      exact honly _ _ _ h1
    | ok s1 =>
      rw [h1] at h
      exact ih s1 e' h

theorem mapM_error_only {α β : Type} (f : α → Except Fault β) (e : Fault) (l : List α)
    (honly : ∀ x e', f x = .error e' → e' = e) :
    ∀ e', l.mapM f = .error e' → e' = e := by
  induction l with
  | nil => intro e' h; rw [List.mapM_nil] at h; cases h
  | cons x rest ih =>
    intro e' h
    rw [List.mapM_cons] at h
    cases h1 : f x with
    | error e1 =>
      rw [h1] at h
      cases h
      exact honly _ _ h1
    | ok y =>
      rw [h1] at h
      cases h2 : rest.mapM f with
      | error e2 =>
        rw [h2] at h
        cases h
        exact ih _ h2
      | ok ys => rw [h2] at h; cases h

/-- The key computation faults in one way only, by a read out of range. -/
theorem computeKey_error (t : LshTable) (v : List ℚ) (e : Fault)
    (h : t.computeKey v = .error e) : e = .outOfRange := by
  unfold computeKey at h
  cases hk : t.getKey v with
  | ok kf => rw [hk] at h; cases h
  | error e1 =>
    rw [hk] at h
    cases h
    unfold getKey at hk
    refine mapM_error_only _ .outOfRange _ ?_ e hk
    intro j e' hj
    simp only [bind, Except.bind] at hj
    cases hd : t.dotRow v j with
    | ok x => rw [hd] at hj; cases hj
    | error e2 =>
      rw [hd] at hj
      cases hj
      unfold dotRow at hd
      refine foldlM_error_only _ .outOfRange _ ?_ 0 e' hd
      intro s k e3 h3
      simp only [bind, Except.bind] at h3
      cases hr : t.Hash_Matrix_.read j k with
      | error e4 =>
        rw [hr] at h3
        cases h3
        exact Matrix.read_error _ _ _ _ hr
      | ok a =>
        rw [hr] at h3
        cases hf : readFeature v k with
        | error e4 =>
          rw [hf] at h3
          cases h3
          exact readFeature_error _ _ _ hf
        | ok x => rw [hf] at h3; cases h3

theorem pushBackAt_nonempty (key : BucketKey) (value : FeatureIndex) (m : BucketsSpace)
    (h : ∀ p ∈ m, p.2 ≠ []) : ∀ p ∈ BucketsSpace.pushBackAt key value m, p.2 ≠ [] := by
  induction m with
  | nil => intro p hp; cases hp
  | cons q rest ih =>
    obtain ⟨k, b⟩ := q
    intro p hp
    by_cases hk : k = key
    · simp only [BucketsSpace.pushBackAt, hk, if_true, List.mem_cons] at hp
      rcases hp with rfl | hp
      · simp
      · exact h p (List.mem_cons_of_mem _ hp)
    · simp only [BucketsSpace.pushBackAt, hk, if_false, List.mem_cons] at hp
      rcases hp with rfl | hp
      · exact h _ (List.mem_cons_self _ _)
      · exact ih (fun p hp => h p (List.mem_cons_of_mem _ hp)) p hp

theorem insert_push_nonempty (key : BucketKey) (value : FeatureIndex) (m : BucketsSpace)
    (h : ∀ p ∈ m, p.2 ≠ []) (hf : BucketsSpace.find m key = none) :
    ∀ p ∈ BucketsSpace.pushBackAt key value (BucketsSpace.insertOrdered key [] m),
      p.2 ≠ [] := by
  induction m with
  | nil =>
    intro p hp
    simp only [BucketsSpace.insertOrdered, BucketsSpace.pushBackAt, if_true,
      List.mem_singleton] at hp
    subst hp
    simp
  | cons q rest ih =>
    obtain ⟨k, b⟩ := q
    have hk : ¬ k = key := by
      intro hk
      simp [BucketsSpace.find, hk] at hf
    have hf' : BucketsSpace.find rest key = none := by
      simpa [BucketsSpace.find, hk] using hf
    intro p hp
    by_cases hl : keyLess key k = true
    · simp only [BucketsSpace.insertOrdered, hl, if_true, BucketsSpace.pushBackAt,
        List.mem_cons] at hp
      rcases hp with rfl | rfl | hp
      · simp
      · exact h _ (List.mem_cons_self _ _)
      · exact h p (List.mem_cons_of_mem _ hp)
    · simp only [BucketsSpace.insertOrdered, hl, BucketsSpace.pushBackAt, hk, if_false,
        List.mem_cons, Bool.false_eq_true] at hp
      rcases hp with rfl | hp
      · exact h _ (List.mem_cons_self _ _)
      · exact ih (fun p hp => h p (List.mem_cons_of_mem _ hp)) hf' p hp

/-- A call of `add` leaves no empty bucket when there was none. -/
theorem add_nonempty (t t' : LshTable) (i : FeatureIndex) (v : List ℚ)
    (hI : ∀ p ∈ t.buckets_space_, p.2 ≠ []) (h : t.add i v = .ok t') :
    ∀ p ∈ t'.buckets_space_, p.2 ≠ [] := by
  obtain ⟨_, key, _, ht'⟩ := add_inv t t' i v h
  rw [ht']
  simp only
  cases hf : t.buckets_space_.find key with
  | none =>
    simp only [BucketsSpace.subscript, hf]
    exact insert_push_nonempty key i _ hI hf
  | some b =>
    simp only [BucketsSpace.subscript, hf]
    exact pushBackAt_nonempty key i _ hI

theorem mem_of_find (key : BucketKey) (b : Bucket) (m : BucketsSpace)
    (h : BucketsSpace.find m key = some b) : (key, b) ∈ m := by
  induction m with
  | nil => simp [BucketsSpace.find] at h
  | cons q rest ih =>
    obtain ⟨k, b'⟩ := q
    by_cases hk : k = key
    · simp only [BucketsSpace.find, hk, if_true, Option.some.injEq] at h
      subst h
      subst hk
      exact List.mem_cons_self _ _
    · simp only [BucketsSpace.find, hk, if_false] at h
      exact List.mem_cons_of_mem _ (ih h)

/-! ## Lemmas on the evaluation of the driver -/

theorem foldl_add_init {α : Type} (g : α → ℚ) (l : List α) :
    ∀ init : ℚ, l.foldl (fun s x => s + g x) init = init + (l.map g).sum := by
  induction l with
  | nil => intro init; simp
  | cons x rest ih =>
    intro init
    simp only [List.foldl_cons, List.map_cons, List.sum_cons, ih]
    ring

theorem foldl_pair_init {α : Type} (a b : α → ℚ) (l : List α) :
    ∀ d : ℚ × ℚ, l.foldl (fun d x => (d.1 + a x, d.2 + b x)) d =
      (d.1 + (l.map a).sum, d.2 + (l.map b).sum) := by
  induction l with
  | nil => intro d; simp
  | cons x rest ih =>
    intro d
    simp only [List.foldl_cons, List.map_cons, List.sum_cons, ih]
    ext <;> simp only <;> ring

theorem intMatrix_read_eq (m : IntMatrix) (i j : Nat) (h : m.cell i j < m.data.length) :
    m.read i j = .ok (m.valueAt i j) := by
  unfold IntMatrix.read IntMatrix.valueAt
  rw [List.getElem?_eq_getElem h]
  simp [List.getD_eq_getElem?_getD, List.getElem?_eq_getElem h]

theorem Matrix.readAt_of (m : Matrix) (index : Int) (k : Nat) (h : m.InRangeAt index k) :
    m.readAt index k = .ok (m.valueAt index k) := by
  unfold Matrix.readAt Matrix.valueAt
  rw [if_pos h.1, List.getElem?_eq_getElem h.2]
  simp [List.getD_eq_getElem?_getD, List.getElem?_eq_getElem h.2]

theorem distancesLoop_eq (dataset query : Matrix) (ti ri : Int) (i : Nat)
    (h : ∀ k, k < dataset.cols →
      dataset.InRangeAt ti k ∧ dataset.InRangeAt ri k ∧ query.cell i k < query.data.length) :
    distancesLoop dataset query ti ri i =
      .ok (squaredDistance dataset query ti i, squaredDistance dataset query ri i) := by
  have hfold : distancesLoop dataset query ti ri i =
      .ok ((List.range dataset.cols).foldl
        (fun (d : ℚ × ℚ) k =>
          (d.1 + (dataset.valueAt ti k - query.value i k) *
              (dataset.valueAt ti k - query.value i k),
            d.2 + (dataset.valueAt ri k - query.value i k) *
              (dataset.valueAt ri k - query.value i k))) (0, 0)) := by
    unfold distancesLoop
    apply foldlM_eq_foldl
    intro d k hk
    obtain ⟨h1, h2, h3⟩ := h k (List.mem_range.mp hk)
    rw [Matrix.readAt_of _ _ _ h1, Matrix.readAt_of _ _ _ h2, Matrix.read_of_lt _ _ _ h3]
    rfl
  rw [hfold, foldl_pair_init]
  simp [squaredDistance]

theorem neighbourLoop_eq (truth result : IntMatrix) (nn : Int) (dataset query : Matrix)
    (i : Nat) (hi : i < truth.rows) (h : EvalInRange truth result nn dataset query)
    (init : ℚ) :
    neighbourLoop truth result nn dataset query i init =
      .ok (init + ((List.range nn.toNat).map fun j =>
        squaredDistance dataset query (resultIndex result i j) i /
          squaredDistance dataset query (truth.valueAt i j) i).sum) := by
  rw [← foldl_add_init]
  unfold neighbourLoop
  apply foldlM_eq_foldl
  intro s j hj
  obtain ⟨h1, h2, h3⟩ := h i hi j (List.mem_range.mp hj)
  rw [intMatrix_read_eq _ _ _ h1, intMatrix_read_eq _ _ _ h2]
  simp only [bind, Except.bind]
  have := distancesLoop_eq dataset query (truth.valueAt i j) (resultIndex result i j) i h3
  unfold resultIndex at this
  rw [this]
  rfl

/-- The value that `Evluation_Error_ratio` returns when its reads are in range. -/
theorem Evluation_Error_ratio_eq (truth result : IntMatrix) (nn : Int) (dataset query : Matrix)
    (h : EvalInRange truth result nn dataset query) :
    Evluation_Error_ratio truth result nn dataset query =
      .ok (averageSquaredRatio truth result nn dataset query) := by
  have hfold : (List.range truth.rows).foldlM
      (fun error_ratio i => neighbourLoop truth result nn dataset query i error_ratio) 0 =
      .ok ((List.range truth.rows).foldl
        (fun s i => s + ((List.range nn.toNat).map fun j =>
          squaredDistance dataset query (resultIndex result i j) i /
            squaredDistance dataset query (truth.valueAt i j) i).sum) 0) := by
    apply foldlM_eq_foldl
    intro s i hi
    exact neighbourLoop_eq truth result nn dataset query i (List.mem_range.mp hi) h s
  unfold Evluation_Error_ratio
  rw [hfold, foldl_add_init]
  simp [averageSquaredRatio, bind, Except.bind, pure, Except.pure]

/-! ## Lemmas on runs of client calls -/

/-- The batch `add` is the run of the single calls, the indices taken as `unsigned int`. -/
theorem add_features_eq (features : List (Nat × List ℚ)) (t : LshTable) :
    t.add_features features =
      match t.addAll
          (features.map fun p => (⟨p.1 % 4294967296, Nat.mod_lt _ (by decide)⟩, p.2)) with
      | .ok t' => .ok t'.optimize
      | .error e => .error e := by
  rw [addAll_eq_foldlM, List.foldlM_map]
  unfold add_features
  simp only [bind, Except.bind, pure, Except.pure]
  cases List.foldlM (fun t p => t.add ⟨p.1 % 4294967296, Nat.mod_lt _ (by decide)⟩ p.2) t
      features with
  | error e => rfl
  | ok t1 => rfl

/-- A property of the table that every call of `add` keeps is kept by every client call. -/
theorem exec_inv (Inv : LshTable → Prop)
    (hadd : ∀ (t t' : LshTable) i v, Inv t → t.add i v = .ok t' → Inv t')
    (t t' : LshTable) (c : Call) (hI : Inv t) (h : t.exec c = .ok t') : Inv t' := by
  cases c with
  | add value feature => exact hadd t t' value feature hI h
  | add_features features =>
    simp only [exec, add_features, bind, Except.bind] at h
    cases hf : List.foldlM
        (fun t p => t.add ⟨p.1 % 4294967296, Nat.mod_lt _ (by decide)⟩ p.2) t features with
    | error e => rw [hf] at h; cases h
    | ok t1 =>
      rw [hf] at h
      cases h
      exact (foldlM_inv _ Inv (fun _ => True) features
        (fun s x s' _ hs hx => ⟨hadd s s' _ _ hs hx, trivial⟩) t t1 hI hf).1
  | optimize =>
    simp only [exec, optimize, Except.ok.injEq] at h
    subst h
    exact hI
  | getBucketFromKey key =>
    simp only [exec, bind, Except.bind] at h
    cases hg : t.getBucketFromKey key with
    | error e => rw [hg] at h; cases h
    | ok r =>
      rw [hg] at h
      cases h
      exact hI

theorem run_inv (Inv : LshTable → Prop)
    (hadd : ∀ (t t' : LshTable) i v, Inv t → t.add i v = .ok t' → Inv t')
    (calls : List Call) :
    ∀ t t' : LshTable, Inv t → t.run calls = .ok t' → Inv t' := by
  induction calls with
  | nil =>
    intro t t' hI h
    simp only [run, Except.ok.injEq] at h
    subst h
    exact hI
  | cons c rest ih =>
    intro t t' hI h
    simp only [run] at h
    cases h1 : t.exec c with
    | error e => rw [h1] at h; cases h
    | ok t1 =>
      rw [h1] at h
      exact ih t1 t' (exec_inv Inv hadd t t1 c hI h1) h

/-- The key is computed from the projection parameters and the feature. -/
theorem computeKey_of_params (t₁ t₂ : LshTable) (v : List ℚ) (h : t₁.params = t₂.params) :
    t₁.getKey v = t₂.getKey v ∧ t₁.computeKey v = t₂.computeKey v := by
  obtain ⟨a1, a2, a3, a4, a5, a6, a7, a8, a9, a10, a11⟩ := t₁
  obtain ⟨b1, b2, b3, b4, b5, b6, b7, b8, b9, b10, b11⟩ := t₂
  simp only [params, Prod.mk.injEq] at h
  obtain ⟨h1, h2, h3, h4, h5⟩ := h
  subst h1 h2 h3 h4 h5
  exact ⟨rfl, rfl⟩

theorem add_params (t t' : LshTable) (i : FeatureIndex) (v : List ℚ)
    (h : t.add i v = .ok t') : t'.params = t.params ∧ t'.speed_level_ = t.speed_level_ := by
  obtain ⟨_, key, _, ht'⟩ := add_inv t t' i v h
  rw [ht']
  exact ⟨rfl, rfl⟩

end LshTable

/-! ## The claims -/

open LshTable

/-- C1, insertion completeness: on a table that the float constructor returned, every
sequence of calls `add(i, v)` with features of at least `D` floats returns, and afterwards, for
every pair `(i, v)` of the sequence, `getBucketFromKey` at the componentwise floor of
`getKey(v)` returns a bucket, not the null pointer, and that bucket contains `i`. -/
theorem C1_insertion_completeness (D M : Nat) (gen : RandomSource) (t₀ : LshTable)
    (calls : List (FeatureIndex × List ℚ)) (h0 : construct D M gen = .ok t₀)
    (hlen : ∀ c ∈ calls, D ≤ c.2.length) :
    ∃ t, t₀.addAll calls = .ok t ∧
      ∀ c ∈ calls, ∃ key_float b, t₀.getKey c.2 = .ok key_float ∧
        t.getBucketFromKey (key_float.map Rat.floor) = .ok (some b) ∧ c.1 ∈ b := by
  obtain ⟨t, ht⟩ := addAll_fresh D M gen t₀ calls h0 hlen
  obtain ⟨hs, _, _, hD, _, _, _, _, hr⟩ := construct_ok D M gen t₀ h0
  obtain ⟨_, hs', _, hfind⟩ := addAll_inv calls t₀ t ht
  refine ⟨t, ht, ?_⟩
  intro c hc
  obtain ⟨kf, hkf⟩ : ∃ kf, t₀.getKey c.2 = .ok kf :=
    ⟨_, getKey_eq t₀ c.2 hr (by rw [hD]; exact hlen c hc)⟩
  have hck : t₀.computeKey c.2 = .ok (kf.map Rat.floor) := by
    unfold computeKey
    rw [hkf]
    rfl
  obtain ⟨b, hb, hi⟩ := grown_mem (t₀.buckets_space_.find (kf.map Rat.floor)) _ c.1
    (addedUnder_mem t₀ calls c _ hc hck)
  refine ⟨kf, b, hkf, ?_, hi⟩
  simp only [getBucketFromKey, hs', hs, hfind, hb]

theorem C1_insertion_completeness_witness :
    ∃ t, sampleTable.addAll sampleCalls = .ok t ∧
      ∀ c ∈ sampleCalls, ∃ key_float b, sampleTable.getKey c.2 = .ok key_float ∧
        t.getBucketFromKey (key_float.map Rat.floor) = .ok (some b) ∧ c.1 ∈ b :=
  C1_insertion_completeness 4 2 sampleGen sampleTable sampleCalls (by decide) (by decide)

/-- C2, a single `add(i, v)` on a plain-map table appends `i` at the end of the bucket of
`key(v)`: the call returns, a bucket `b` stored under the key becomes `b` followed by `i`, an
unseen key gets the bucket `[i]`, and `n > 0` calls with the same `(i, v)` on a table without
buckets leave the bucket that holds `i` exactly `n` times. -/
theorem C2_add_appends (t : LshTable) (i : FeatureIndex) (v : List ℚ)
    (hs : t.speed_level_ = .kHash) (hr : t.ReadsInRange) (hlen : t.vec_len ≤ v.length) :
    ∃ key t', t.computeKey v = .ok key ∧ t.add i v = .ok t' ∧
      (∀ b, t.getBucketFromKey key = .ok (some b) →
        t'.getBucketFromKey key = .ok (some (b ++ [i]))) ∧
      (t.getBucketFromKey key = .ok none → t'.getBucketFromKey key = .ok (some [i])) ∧
      (t.buckets_space_ = [] → ∀ n, 0 < n →
        ∃ tn, t.addAll (List.replicate n (i, v)) = .ok tn ∧
          tn.getBucketFromKey key = .ok (some (List.replicate n i))) := by
  obtain ⟨key, hk⟩ := computeKey_total t v hr hlen
  refine ⟨key, _, hk, add_ok t i v key hs hk, ?_, ?_, ?_⟩
  · intro b hb
    simp only [getBucketFromKey, hs, Except.ok.injEq] at hb
    simp [getBucketFromKey, hs, BucketsSpace.find_subscript_pushBackAt, hb]
  · intro hb
    simp only [getBucketFromKey, hs, Except.ok.injEq] at hb
    simp [getBucketFromKey, hs, BucketsSpace.find_subscript_pushBackAt, hb]
  · intro hempty n hn
    obtain ⟨tn, htn⟩ := addAll_total (List.replicate n (i, v)) t hs (by
      intro c hc
      rw [List.eq_of_mem_replicate hc]
      exact ⟨key, hk⟩)
    obtain ⟨_, hs', _, hfind⟩ := addAll_inv _ t tn htn
    refine ⟨tn, htn, ?_⟩
    simp only [getBucketFromKey, hs', hs, hfind, addedUnder_replicate t i v key hk, hempty,
      BucketsSpace.find]
    cases n with
    | zero => omega
    | succ n => simp [grown, List.replicate_succ]

theorem C2_add_appends_witness :
    ∃ key t', sampleTable.computeKey [0, 0, 0, 0] = .ok key ∧
      sampleTable.add 10 [0, 0, 0, 0] = .ok t' ∧
      (∀ b, sampleTable.getBucketFromKey key = .ok (some b) →
        t'.getBucketFromKey key = .ok (some (b ++ [10]))) ∧
      (sampleTable.getBucketFromKey key = .ok none →
        t'.getBucketFromKey key = .ok (some [10])) ∧
      (sampleTable.buckets_space_ = [] → ∀ n, 0 < n →
        ∃ tn, sampleTable.addAll (List.replicate n (10, [0, 0, 0, 0])) = .ok tn ∧
          tn.getBucketFromKey key = .ok (some (List.replicate n 10))) :=
  C2_add_appends sampleTable 10 [0, 0, 0, 0] rfl
    (by unfold LshTable.ReadsInRange; decide) (by decide)

/-- C3, a single `add(i, v)` that returned changed no bucket other than the one of `key(v)`:
`getBucketFromKey` gives the same result as before at every other key, no stored key is lost,
every stored key of afterwards was stored before or is `key(v)`, and the number of stored keys
grew by at most one. -/
theorem C3_add_frame (t t' : LshTable) (i : FeatureIndex) (v : List ℚ)
    (h : t.add i v = .ok t') :
    ∃ key, t.computeKey v = .ok key ∧
      (∀ k, k ≠ key → t'.getBucketFromKey k = t.getBucketFromKey k) ∧
      (∀ k, k ∈ t'.storedKeys → k ∈ t.storedKeys ∨ k = key) ∧
      (∀ k, k ∈ t.storedKeys → k ∈ t'.storedKeys) ∧
      t.usedMemory ≤ t'.usedMemory ∧ t'.usedMemory ≤ t.usedMemory + 1 := by
  obtain ⟨hs, key, hk, ht'⟩ := add_inv t t' i v h
  refine ⟨key, hk, ?_, ?_⟩
  · intro k hne
    rw [ht']
    simp [getBucketFromKey, hs, BucketsSpace.find_subscript_pushBackAt, hne]
  · have hkeys := BucketsSpace.keys_subscript_pushBackAt key i t.buckets_space_
    have hst : t'.storedKeys =
        ((t.buckets_space_.subscript key).pushBackAt key i).map Prod.fst := by
      rw [ht']; rfl
    have hlen' : t'.usedMemory = t'.storedKeys.length := by
      simp [usedMemory, BucketsSpace.size, storedKeys]
    have hlen : t.usedMemory = t.storedKeys.length := by
      simp [usedMemory, BucketsSpace.size, storedKeys]
    rw [hlen', hlen, hst]
    rcases hkeys with ⟨heq, _⟩ | hperm
    · rw [heq]
      exact ⟨fun k hk => Or.inl hk, fun k hk => hk, le_refl _, Nat.le_succ _⟩
    · refine ⟨?_, ?_, ?_, ?_⟩
      · intro k hk
        rcases List.mem_cons.mp (hperm.mem_iff.mp hk) with rfl | hm
        · exact Or.inr rfl
        · exact Or.inl hm
      · intro k hk
        exact hperm.mem_iff.mpr (List.mem_cons_of_mem _ hk)
      · rw [hperm.length_eq]
        simp [storedKeys]
      · rw [hperm.length_eq]
        simp [storedKeys]

theorem C3_add_frame_witness :
    ∃ key, sampleTable.computeKey [0, 0, 0, 0] = .ok key ∧
      (∀ k, k ≠ key → sampleAfterOne.getBucketFromKey k = sampleTable.getBucketFromKey k) ∧
      (∀ k, k ∈ sampleAfterOne.storedKeys → k ∈ sampleTable.storedKeys ∨ k = key) ∧
      (∀ k, k ∈ sampleTable.storedKeys → k ∈ sampleAfterOne.storedKeys) ∧
      sampleTable.usedMemory ≤ sampleAfterOne.usedMemory ∧
      sampleAfterOne.usedMemory ≤ sampleTable.usedMemory + 1 :=
  C3_add_frame sampleTable sampleAfterOne 10 [0, 0, 0, 0] (by decide!)

/-- C4, no implicit re-keying: after any sequence of calls `add(i_t, v_t)` on a table that the
float constructor returned, `getBucketFromKey(k)` at a key of `M` components is exactly the
subsequence of the `i_t`, in call order and with multiplicity, whose `key(v_t)` agrees with `k`
in all `M` components, and is the null pointer when there is none; it is the null pointer at
every key of another length, and null exactly when no `v_t` has the key `k`. -/
theorem C4_no_rekeying (D M : Nat) (gen : RandomSource) (t₀ : LshTable)
    (calls : List (FeatureIndex × List ℚ)) (h0 : construct D M gen = .ok t₀)
    (hlen : ∀ c ∈ calls, D ≤ c.2.length) :
    ∃ t, t₀.addAll calls = .ok t ∧
      (∀ k, k.length = M →
        t.getBucketFromKey k = .ok (grown none (t₀.indicesWithKey calls k))) ∧
      (∀ k, k.length ≠ M → t.getBucketFromKey k = .ok none) ∧
      (∀ k, t.getBucketFromKey k = .ok none ↔ ∀ c ∈ calls, t₀.computeKey c.2 ≠ .ok k) := by
  obtain ⟨t, ht⟩ := addAll_fresh D M gen t₀ calls h0 hlen
  obtain ⟨hs, hempty, hM, _, _, _, _, _, _⟩ := construct_ok D M gen t₀ h0
  obtain ⟨_, hs', _, hfind⟩ := addAll_inv calls t₀ t ht
  have hget : ∀ k, t.getBucketFromKey k = .ok (grown none (t₀.addedUnder calls k)) := by
    intro k
    simp only [getBucketFromKey, hs', hs, hfind, hempty, BucketsSpace.find]
  refine ⟨t, ht, ?_, ?_, ?_⟩
  · intro k hk
    rw [hget k, indicesWithKey_eq t₀ calls k (by rw [hM]; exact hk)]
  · intro k hk
    rw [hget k, addedUnder_eq_nil]
    · rfl
    · intro c _ hc
      exact hk ((computeKey_length t₀ c.2 k hc).trans hM)
  · intro k
    rw [hget k, ← addedUnder_eq_nil_iff]
    constructor
    · intro h
      exact (grown_none_eq_none _).mp (Except.ok.inj h)
    · intro h
      rw [h]
      rfl

theorem C4_no_rekeying_witness :
    ∃ t, sampleTable.addAll sampleCalls = .ok t ∧
      (∀ k, k.length = 2 →
        t.getBucketFromKey k = .ok (grown none (sampleTable.indicesWithKey sampleCalls k))) ∧
      (∀ k, k.length ≠ 2 → t.getBucketFromKey k = .ok none) ∧
      (∀ k, t.getBucketFromKey k = .ok none ↔
        ∀ c ∈ sampleCalls, sampleTable.computeKey c.2 ≠ .ok k) :=
  C4_no_rekeying 4 2 sampleGen sampleTable sampleCalls (by decide) (by decide)

/-- C5, `getBucketFromKey` on a plain-map table populated by calls of `add` returns the null
pointer at every key that was not the computed key of one of the calls, and a call of it,
whether the key is stored or not, returns and leaves the table (stored keys, buckets and
`usedMemory()`) as it found it. -/
theorem C5_lookup_not_found (D M : Nat) (gen : RandomSource) (t₀ t : LshTable)
    (calls : List (FeatureIndex × List ℚ)) (h0 : construct D M gen = .ok t₀)
    (hrun : t₀.addAll calls = .ok t) :
    (∀ k, (∀ c ∈ calls, t₀.computeKey c.2 ≠ .ok k) → t.getBucketFromKey k = .ok none) ∧
      (∀ k, ∃ r, t.getBucketFromKey k = .ok r ∧ t.exec (.getBucketFromKey k) = .ok t) := by
  obtain ⟨hs, hempty, _⟩ := construct_ok D M gen t₀ h0
  obtain ⟨_, hs', _, hfind⟩ := addAll_inv calls t₀ t hrun
  constructor
  · intro k hk
    simp only [getBucketFromKey, hs', hs, hfind, hempty, BucketsSpace.find,
      addedUnder_eq_nil t₀ calls k hk]
    rfl
  · intro k
    refine ⟨t.buckets_space_.find k, ?_, ?_⟩
    · simp only [getBucketFromKey, hs', hs]
    · simp only [exec, getBucketFromKey, hs', hs]
      rfl

theorem C5_lookup_not_found_witness :
    (∀ k, (∀ c ∈ sampleCalls, sampleTable.computeKey c.2 ≠ .ok k) →
        sampleFilled.getBucketFromKey k = .ok none) ∧
      (∀ k, ∃ r, sampleFilled.getBucketFromKey k = .ok r ∧
        sampleFilled.exec (.getBucketFromKey k) = .ok sampleFilled) :=
  C5_lookup_not_found 4 2 sampleGen sampleTable sampleFilled sampleCalls (by decide)
    (by decide!)

/-- C6, the concrete scenario: on a table constructed with `D = 4` and `M = 2` (so `W = 1000`),
adding three features whose computed keys are (0,0), (0,0) and (1,2) with the indices 10, 11
and 12, in that order, returns, and then `getBucketFromKey` gives `[10, 11]` at (0,0), `[12]`
at (1,2) and the null pointer at (9,9). -/
theorem C6_scenario (gen : RandomSource) (t₀ : LshTable) (v₁ v₂ v₃ : List ℚ)
    (h0 : construct 4 2 gen = .ok t₀)
    (h1 : t₀.computeKey v₁ = .ok [0, 0]) (h2 : t₀.computeKey v₂ = .ok [0, 0])
    (h3 : t₀.computeKey v₃ = .ok [1, 2]) :
    t₀.Hash_W_ = 1000 ∧
    ∃ t, t₀.addAll [(10, v₁), (11, v₂), (12, v₃)] = .ok t ∧
      t.getBucketFromKey [0, 0] = .ok (some [10, 11]) ∧
      t.getBucketFromKey [1, 2] = .ok (some [12]) ∧
      t.getBucketFromKey [9, 9] = .ok none := by
  obtain ⟨hs, hempty, _, _, hW, _⟩ := construct_ok 4 2 gen t₀ h0
  obtain ⟨t, ht⟩ := addAll_total [(10, v₁), (11, v₂), (12, v₃)] t₀ hs (by
    intro c hc
    simp only [List.mem_cons, List.mem_singleton, List.not_mem_nil, or_false] at hc
    rcases hc with rfl | rfl | rfl
    · exact ⟨_, h1⟩
    · exact ⟨_, h2⟩
    · exact ⟨_, h3⟩)
  obtain ⟨_, hs', _, hfind⟩ := addAll_inv _ t₀ t ht
  refine ⟨hW, t, ht, ?_, ?_, ?_⟩ <;>
    simp [getBucketFromKey, hs', hs, hfind, hempty, BucketsSpace.find, addedUnder, h1, h2, h3,
      grown]

theorem C6_scenario_witness :
    sampleTable.Hash_W_ = 1000 ∧
    ∃ t, sampleTable.addAll
        [(10, [0, 0, 0, 0]), (11, [1, 2, 3, 4]), (12, [1000, 0, 2000, 0])] = .ok t ∧
      t.getBucketFromKey [0, 0] = .ok (some [10, 11]) ∧
      t.getBucketFromKey [1, 2] = .ok (some [12]) ∧
      t.getBucketFromKey [9, 9] = .ok none :=
  C6_scenario sampleGen sampleTable [0, 0, 0, 0] [1, 2, 3, 4] [1000, 0, 2000, 0]
    (by decide) (by decide!) (by decide!) (by decide!)

/-- C7 at `D = 3`, `M = 2`: the constructor returns, the positions (0,2) and (1,0) are the same
cell of the buffer, and the weight that `getKey` reads for hash function 0 and coordinate 2 is
the value drawn for (1,0), not the one drawn for (0,2). -/
theorem C7_rows_overlap :
    ∃ t, construct 3 2 countingGen = .ok t ∧
      t.Hash_Matrix_.cell 0 2 = t.Hash_Matrix_.cell 1 0 ∧
      t.Hash_Matrix_.read 0 2 = .ok (drawnFor countingGen 3 1 0) ∧
      drawnFor countingGen 3 0 2 ≠ drawnFor countingGen 3 1 0 :=
  ⟨⟨[], [], .kHash, [], 2, [], [], ⟨[0, 1, 3, 4, 5, 0], 3, 2⟩, 0, 3, 1000⟩,
    by decide!, by decide, by decide!, by decide!⟩

/-- C8 at `D = 1`, `M = 2`: whatever the random source, the constructor writes
`*(Hash_Matrix_[1] + 0)` at offset 2 of a buffer of `1 * 2` floats and does not return. -/
theorem C8_constructor_out_of_range (gen : RandomSource) :
    construct 1 2 gen = .error .outOfRange ∧
      (⟨List.replicate (1 * 2) 0, 1, 2⟩ : Matrix).cell 1 0 = 2 := by
  constructor
  · rfl
  · rfl

/-- C9, the key that `add(i, v)` uses: on a table reached from the float constructor by calls of
`add`, for a feature of at least `D` floats, the key is computed, it is the key under which
`add` stores `i`, it has `M` components, and component `j` is
`floor((a_j · v + b) / W)` in exact arithmetic, with `a_j` the `D` weights that `getKey` reads
for hash function `j`, `b = Hash_Bias_` the same for every `j` and `W = Hash_W_ = 1000`. -/
theorem C9_key_formula (D M : Nat) (gen : RandomSource) (t₀ t : LshTable)
    (calls : List (FeatureIndex × List ℚ)) (i : FeatureIndex) (v : List ℚ)
    (h0 : construct D M gen = .ok t₀) (hrun : t₀.addAll calls = .ok t)
    (hv : D ≤ v.length) :
    ∃ key, t.computeKey v = .ok key ∧
      t.add i v =
        .ok { t with buckets_space_ := (t.buckets_space_.subscript key).pushBackAt key i } ∧
      key.length = M ∧ t.Hash_W_ = 1000 ∧
      ∀ j, j < M →
        (∀ k, k < D → t.Hash_Matrix_.read j k = .ok (t.weight j k)) ∧
        key[j]? = some ⌊(∑ k in Finset.range D, t.weight j k * v.getD k 0 + t.Hash_Bias_)
          / t.Hash_W_⌋ := by
  obtain ⟨hs, _, hM, hD, hW, _, _, _, hr⟩ := construct_ok D M gen t₀ h0
  obtain ⟨_, hs', _, _⟩ := addAll_inv calls t₀ t hrun
  have hp := addAll_params calls t₀ t hrun
  have hM' : t.key_size_ = M := by rw [hp]; exact hM
  have hD' : t.vec_len = D := by rw [hp]; exact hD
  have hW' : t.Hash_W_ = 1000 := by rw [hp]; exact hW
  have hr' : t.ReadsInRange := by rw [hp]; exact hr
  have hk := computeKey_eq t v hr' (by rw [hD']; exact hv)
  refine ⟨_, hk, add_ok t i v _ (hs'.trans hs) hk, ?_, hW', ?_⟩
  · simp [hM']
  · intro j hj
    constructor
    · intro k hk'
      exact Matrix.read_of_lt _ _ _ (hr' j (by rw [hM']; exact hj) k (by rw [hD']; exact hk'))
    · rw [List.getElem?_map, List.getElem?_range (by rw [hM']; exact hj), Option.map_some',
        hD', foldl_add_eq_sum (fun k => t.weight j k * v.getD k 0) D]
      rfl

theorem C9_key_formula_witness :
    ∃ key, sampleFilled.computeKey [1000, 0, 2000, 0] = .ok key ∧
      sampleFilled.add 12 [1000, 0, 2000, 0] =
        .ok { sampleFilled with
          buckets_space_ := (sampleFilled.buckets_space_.subscript key).pushBackAt key 12 } ∧
      key.length = 2 ∧ sampleFilled.Hash_W_ = 1000 ∧
      ∀ j, j < 2 →
        (∀ k, k < 4 → sampleFilled.Hash_Matrix_.read j k = .ok (sampleFilled.weight j k)) ∧
        key[j]? = some ⌊(∑ k in Finset.range 4,
            sampleFilled.weight j k * ([1000, 0, 2000, 0] : List ℚ).getD k 0 +
              sampleFilled.Hash_Bias_) / sampleFilled.Hash_W_⌋ :=
  C9_key_formula 4 2 sampleGen sampleTable sampleFilled sampleCalls 12 [1000, 0, 2000, 0]
    (by decide) (by decide!) (by decide)

/-- C10, round-trip persistence: a table populated by calls of `add` on a constructed table is
saved and the archive loaded into any other table; the load returns, and on the restored table
`getBucketFromKey` gives at every key what it gives on the original, the same indices in the
same order at a stored key and the null pointer at a key that is not stored. -/
theorem C10_roundtrip (D M : Nat) (gen : RandomSource) (t₀ t target : LshTable)
    (calls : List (FeatureIndex × List ℚ)) (h0 : construct D M gen = .ok t₀)
    (hrun : t₀.addAll calls = .ok t) :
    ∃ restored, t.saveThenLoad target = .ok restored ∧
      ∀ k, restored.getBucketFromKey k = t.getBucketFromKey k ∧
        t.getBucketFromKey k = .ok (grown none (t₀.addedUnder calls k)) := by
  obtain ⟨hs, hempty, _⟩ := construct_ok D M gen t₀ h0
  obtain ⟨_, hs', _, hfind⟩ := addAll_inv calls t₀ t hrun
  have hst : t.speed_level_ = .kHash := hs'.trans hs
  refine ⟨{ target with
      speed_level_ := SpeedLevel.kHash
      key_size_ := t.key_size_
      mask_ := t.mask_
      buckets_space_ := t.buckets_space_ }, ?_, ?_⟩
  · simp [saveThenLoad, serialize, Archive.ampInt, Archive.ampUInt, Archive.ampSizes,
      Archive.ampSpace, Archive.amp, Archive.is_loading, hst, SpeedLevel.toInt,
      SpeedLevel.ofInt, bind, Except.bind, pure, Except.pure]
  · intro k
    simp only [getBucketFromKey, hst, hfind, hempty, BucketsSpace.find, and_self]

theorem C10_roundtrip_witness :
    ∃ restored, sampleFilled.saveThenLoad blank = .ok restored ∧
      ∀ k, restored.getBucketFromKey k = sampleFilled.getBucketFromKey k ∧
        sampleFilled.getBucketFromKey k =
          .ok (grown none (sampleTable.addedUnder sampleCalls k)) :=
  C10_roundtrip 4 2 sampleGen sampleTable sampleFilled blank sampleCalls (by decide)
    (by decide!)

/-- C11 on the table `sampleFilled`: whatever table its archive is loaded into, the load
returns a table that still has the feature dimension, the matrix, the bias and the window width
of that table, not those of the saved one; loaded into a new table, the restored table has
`vec_len = 0` and an empty matrix where the saved one has `vec_len = 4` and eight weights, and
it does not compute the key (1,2) that the saved table computes for (1000, 0, 2000, 0). -/
theorem C11_parameters_not_restored :
    (∀ target : LshTable, ∃ restored, sampleFilled.saveThenLoad target = .ok restored ∧
      restored.vec_len = target.vec_len ∧ restored.Hash_Matrix_ = target.Hash_Matrix_ ∧
      restored.Hash_Bias_ = target.Hash_Bias_ ∧ restored.Hash_W_ = target.Hash_W_) ∧
    sampleFilled.saveThenLoad blank = .ok sampleRestored ∧
    sampleRestored.vec_len = 0 ∧ sampleFilled.vec_len = 4 ∧
    sampleRestored.Hash_Matrix_.data = [] ∧
    sampleFilled.Hash_Matrix_.data = [1, 0, 0, 0, 1, 0, 0, 0] ∧
    sampleRestored.Hash_W_ ≠ sampleFilled.Hash_W_ ∧
    sampleFilled.computeKey [1000, 0, 2000, 0] = .ok [1, 2] ∧
    sampleRestored.computeKey [1000, 0, 2000, 0] ≠ .ok [1, 2] := by
  refine ⟨?_, by decide, rfl, rfl, rfl, rfl, by decide!, by decide!, by decide!⟩
  intro target
  refine ⟨{ target with
      speed_level_ := SpeedLevel.kHash
      key_size_ := 2
      mask_ := []
      buckets_space_ := [([0, 0], [10, 11]), ([1, 2], [12])] }, ?_, rfl, rfl, rfl, rfl⟩
  simp [saveThenLoad, serialize, Archive.ampInt, Archive.ampUInt, Archive.ampSizes,
    Archive.ampSpace, Archive.amp, Archive.is_loading, sampleFilled, sampleTable,
    SpeedLevel.toInt, SpeedLevel.ofInt, bind, Except.bind, pure, Except.pure]

/-- C12 fails at the policy tags `kArray` and `kBitsetHash`: on the table `sampleFilled` with
either tag, `add` and `getBucketFromKey` end in the bare `throw;`, where under `kHash` the same
calls return. -/
theorem C12_policy_counterexample :
    sampleArray.add 13 [0, 0, 0, 0] = .error .terminate ∧
    sampleArray.getBucketFromKey [0, 0] = .error .terminate ∧
    sampleBitset.add 13 [0, 0, 0, 0] = .error .terminate ∧
    sampleBitset.getBucketFromKey [0, 0] = .error .terminate ∧
    sampleFilled.getBucketFromKey [0, 0] = .ok (some [10, 11]) ∧
    (∃ t', sampleFilled.add 13 [0, 0, 0, 0] = .ok t') :=
  ⟨by decide!, by decide, by decide!, by decide, by decide,
    ⟨{ sampleFilled with buckets_space_ := [([0, 0], [10, 11, 13]), ([1, 2], [12])] },
      by decide!⟩⟩

/-- C12 as amended: only the plain-map policy gives results.  Under `kHash`,
`getBucketFromKey` returns the bucket that the map stores under the key, or the null pointer,
and `add` returns for every feature of at least `vec_len` floats; under `kArray` and
`kBitsetHash`, `getBucketFromKey` ends in the bare `throw;` at every key and `add` never
returns: it ends in the bare `throw;` once the key is computed. -/
theorem C12_policy_amended (t : LshTable) :
    (t.speed_level_ = .kHash →
      (∀ k, t.getBucketFromKey k = .ok (t.buckets_space_.find k)) ∧
      ∀ i v, t.ReadsInRange → t.vec_len ≤ v.length → ∃ t', t.add i v = .ok t') ∧
    (t.speed_level_ ≠ .kHash →
      (∀ k, t.getBucketFromKey k = .error .terminate) ∧
      (∀ i v, ∃ e, t.add i v = .error e) ∧
      ∀ i v key, t.computeKey v = .ok key → t.add i v = .error .terminate) := by
  constructor
  · intro hs
    refine ⟨fun k => by simp only [getBucketFromKey, hs], ?_⟩
    intro i v hr hlen
    obtain ⟨key, hk⟩ := computeKey_total t v hr hlen
    exact ⟨_, add_ok t i v key hs hk⟩
  · intro hs
    have hadd : ∀ i v key, t.computeKey v = .ok key → t.add i v = .error .terminate := by
      intro i v key hk
      simp only [add, hk, bind, Except.bind]
      cases h : t.speed_level_ with
      | kArray => rfl
      | kBitsetHash => rfl
      | kHash => exact absurd h hs
    refine ⟨?_, ?_, hadd⟩
    · intro k
      unfold getBucketFromKey
      cases h : t.speed_level_ with
      | kArray => rfl
      | kBitsetHash => rfl
      | kHash => exact absurd h hs
    · intro i v
      cases hk : t.computeKey v with
      | error e => exact ⟨e, by simp only [add, hk, bind, Except.bind]⟩
      | ok key => exact ⟨_, hadd i v key hk⟩

theorem C12_policy_amended_witness :
    ((∀ k, sampleFilled.getBucketFromKey k = .ok (sampleFilled.buckets_space_.find k)) ∧
      ∀ i v, sampleFilled.ReadsInRange → sampleFilled.vec_len ≤ v.length →
        ∃ t', sampleFilled.add i v = .ok t') ∧
    ((∀ k, sampleArray.getBucketFromKey k = .error .terminate) ∧
      (∀ i v, ∃ e, sampleArray.add i v = .error e) ∧
      ∀ i v key, sampleArray.computeKey v = .ok key →
        sampleArray.add i v = .error .terminate) :=
  ⟨(C12_policy_amended sampleFilled).1 rfl, (C12_policy_amended sampleArray).2 (by decide)⟩

/-- C13 fails at a feature of five floats on a table of dimension four: `add` returns and
inserts the index under the key of the first four floats. -/
theorem C13_shape_counterexample :
    ([0, 0, 0, 0, 7] : List ℚ).length ≠ sampleTable.vec_len ∧
    sampleTable.add 10 [0, 0, 0, 0, 7] = .ok sampleAfterLong ∧
    sampleAfterLong.getBucketFromKey [0, 0] = .ok (some [10]) :=
  ⟨by decide, by decide!, by decide⟩

/-- C13 as amended: `add` takes the feature as a pointer and checks no length.  On a plain-map
table it reads the first `vec_len` floats of the feature: for every feature of at least
`vec_len` floats it returns and inserts the index under the key of those first floats, so a
longer feature is accepted; a feature of fewer floats, when there is at least one hash
function, is read outside its end, which is no reported shape error, and nothing is inserted
by a call that does not return. -/
theorem C13_no_shape_check (t : LshTable) (i : FeatureIndex) (v : List ℚ)
    (hs : t.speed_level_ = .kHash) (hr : t.ReadsInRange) :
    (t.vec_len ≤ v.length →
      ∃ key, t.computeKey (v.take t.vec_len) = .ok key ∧ t.computeKey v = .ok key ∧
        t.add i v =
          .ok { t with buckets_space_ := (t.buckets_space_.subscript key).pushBackAt key i }) ∧
    (v.length < t.vec_len → 0 < t.key_size_ →
      t.computeKey v = .error .outOfRange ∧ t.add i v = .error .outOfRange) := by
  constructor
  · intro hlen
    obtain ⟨key, hk⟩ := computeKey_total t v hr hlen
    exact ⟨key, (computeKey_take t v hr hlen).trans hk, hk, add_ok t i v key hs hk⟩
  · intro hlen hM
    have hk := computeKey_short t v hlen hM
    exact ⟨hk, by simp only [add, hk, bind, Except.bind]⟩

theorem C13_no_shape_check_witness :
    (∃ key, sampleTable.computeKey (([0, 0, 0, 0, 7] : List ℚ).take sampleTable.vec_len)
          = .ok key ∧
        sampleTable.computeKey [0, 0, 0, 0, 7] = .ok key ∧
        sampleTable.add 10 [0, 0, 0, 0, 7] =
          .ok { sampleTable with
            buckets_space_ := (sampleTable.buckets_space_.subscript key).pushBackAt key 10 }) ∧
    (sampleTable.computeKey [0, 0, 0] = .error .outOfRange ∧
        sampleTable.add 10 [0, 0, 0] = .error .outOfRange) :=
  ⟨(C13_no_shape_check sampleTable 10 [0, 0, 0, 0, 7] rfl
      (by unfold LshTable.ReadsInRange; decide)).1 (by decide),
    (C13_no_shape_check sampleTable 10 [0, 0, 0] rfl
      (by unfold LshTable.ReadsInRange; decide)).2 (by decide) (by decide)⟩

/-- C14 fails at `M = 0` and at `D = 0`: the constructor returns a table; with `M = 0` the key
of every feature is the empty key. -/
theorem C14_zero_counterexample :
    (∃ t, construct 4 0 sampleGen = .ok t ∧ t.key_size_ = 0 ∧
      t.computeKey [1, 2, 3, 4] = .ok [] ∧ t.computeKey [5, 6, 7, 8] = .ok []) ∧
    (∃ t, construct 0 3 sampleGen = .ok t ∧ t.vec_len = 0 ∧ t.computeKey [] = .ok [0, 0, 0]) :=
  ⟨⟨{ blank with
        speed_level_ := SpeedLevel.kHash
        Hash_Matrix_ := ⟨[], 4, 0⟩
        vec_len := 4
        Hash_W_ := 1000 }, by decide, rfl, by decide, by decide⟩,
    ⟨{ blank with
        speed_level_ := SpeedLevel.kHash
        key_size_ := 3
        Hash_Matrix_ := ⟨[], 0, 3⟩
        Hash_W_ := 1000 }, by decide, rfl, by decide!⟩⟩

/-- C14 as amended: the float constructor validates neither argument.  With `D = 0` or `M = 0`
it returns a plain-map table without buckets that has `key_size_ = M` and `vec_len = D`; with
`M = 0` every feature has the empty key, and with `D = 0` every feature has the key whose `M`
components are `floor(Hash_Bias_ / 1000)`. -/
theorem C14_zero_sizes_accepted (D M : Nat) (gen : RandomSource) (h : D = 0 ∨ M = 0) :
    ∃ t, construct D M gen = .ok t ∧ t.key_size_ = M ∧ t.vec_len = D ∧
      t.speed_level_ = .kHash ∧ t.buckets_space_ = [] ∧
      (M = 0 → ∀ v, t.computeKey v = .ok []) ∧
      (D = 0 → ∀ v, t.computeKey v = .ok (List.replicate M ⌊gen.b_unif / 1000⌋)) := by
  obtain ⟨t, ht⟩ : ∃ t, construct D M gen = .ok t := by
    rcases h with rfl | rfl
    · exact construct_zero_dim M gen
    · exact construct_zero_keys D gen
  obtain ⟨hs, he, hM, hD, hW, hb, _, _, hr⟩ := construct_ok D M gen t ht
  refine ⟨t, ht, hM, hD, hs, he, ?_, ?_⟩
  · intro h0 v
    unfold computeKey getKey
    rw [hM, h0]
    rfl
  · intro h0 v
    rw [computeKey_eq t v hr (by rw [hD, h0]; exact Nat.zero_le _), hD, h0, hM, hb, hW]
    simp only [List.range_zero, List.foldl_nil, zero_add]
    rw [List.map_const', List.length_range]
    rfl

theorem C14_zero_sizes_accepted_witness :
    ∃ t, construct 4 0 sampleGen = .ok t ∧ t.key_size_ = 0 ∧ t.vec_len = 4 ∧
      t.speed_level_ = .kHash ∧ t.buckets_space_ = [] ∧
      (0 = 0 → ∀ v, t.computeKey v = .ok []) ∧
      (4 = 0 → ∀ v, t.computeKey v = .ok (List.replicate 0 ⌊sampleGen.b_unif / 1000⌋)) :=
  C14_zero_sizes_accepted 4 0 sampleGen (Or.inr rfl)

/-- C15, the batch `add(features)` on indices below 2^32 is the single calls `add(first,
second)` in list order followed by `optimize()`: both end in the same table or in the same
fault; when the batch returns, the table is the one the single calls leave, and the table after
any first part of the list was reached on the way, each of its buckets being the beginning of
the bucket that the final table holds under the same key. -/
theorem C15_batch_add (t : LshTable) (calls : List (FeatureIndex × List ℚ)) :
    (t.add_features (calls.map fun c => (c.1.val, c.2)) =
      match t.addAll calls with
      | .ok t' => .ok t'.optimize
      | .error e => .error e) ∧
    ∀ tf, t.add_features (calls.map fun c => (c.1.val, c.2)) = .ok tf →
      t.addAll calls = .ok tf ∧
      ∀ pre suf, calls = pre ++ suf →
        ∃ tp, t.addAll pre = .ok tp ∧
          ∀ k b, tp.getBucketFromKey k = .ok (some b) →
            ∃ b', tf.getBucketFromKey k = .ok (some b') ∧ b <+: b' := by
  have hconv : (List.map (fun p : Nat × List ℚ =>
        ((⟨p.1 % 4294967296, Nat.mod_lt _ (by decide)⟩ : FeatureIndex), p.2))
      (calls.map fun c => (c.1.val, c.2))) = calls := by
    rw [List.map_map]
    conv_rhs => rw [← List.map_id calls]
    apply List.map_congr_left
    intro c _
    obtain ⟨i, v⟩ := c
    simp only [Function.comp, id, Prod.mk.injEq, and_true]
    exact Fin.ext (Nat.mod_eq_of_lt i.isLt)
  have heq := add_features_eq (calls.map fun c => (c.1.val, c.2)) t
  rw [hconv] at heq
  refine ⟨heq, ?_⟩
  intro tf htf
  rw [heq] at htf
  cases hall : t.addAll calls with
  | error e => rw [hall] at htf; cases htf
  | ok t1 =>
    rw [hall] at htf
    simp only [optimize, Except.ok.injEq] at htf
    subst htf
    refine ⟨rfl, ?_⟩
    intro pre suf hsplit
    rw [hsplit, addAll_append] at hall
    cases hpre : t.addAll pre with
    | error e => rw [hpre] at hall; cases hall
    | ok tp =>
      rw [hpre] at hall
      simp only at hall
      refine ⟨tp, rfl, ?_⟩
      intro k b hb
      obtain ⟨_, hs', _, hfind⟩ := addAll_inv suf tp t1 hall
      unfold getBucketFromKey at hb ⊢
      rw [hs']
      cases hsl : tp.speed_level_ with
      | kArray => rw [hsl] at hb; cases hb
      | kBitsetHash => rw [hsl] at hb; cases hb
      | kHash =>
        rw [hsl] at hb
        simp only [Except.ok.injEq] at hb
        simp only [hfind k, hb]
        cases tp.addedUnder suf k with
        | nil => exact ⟨b, rfl, List.prefix_refl b⟩
        | cons a as => exact ⟨b ++ a :: as, rfl, List.prefix_append b _⟩

theorem C15_batch_add_witness :
    (sampleTable.add_features (sampleCalls.map fun c => (c.1.val, c.2)) =
      match sampleTable.addAll sampleCalls with
      | .ok t' => .ok t'.optimize
      | .error e => .error e) ∧
    (sampleTable.addAll sampleCalls = .ok sampleFilled ∧
      ∀ pre suf, sampleCalls = pre ++ suf →
        ∃ tp, sampleTable.addAll pre = .ok tp ∧
          ∀ k b, tp.getBucketFromKey k = .ok (some b) →
            ∃ b', sampleFilled.getBucketFromKey k = .ok (some b') ∧ b <+: b') :=
  ⟨(C15_batch_add sampleTable sampleCalls).1,
    (C15_batch_add sampleTable sampleCalls).2 sampleFilled (by decide!)⟩

/-- C16, `optimize()` keeps every inserted pair: its body is empty, the table after it is the
table before it, and `getBucketFromKey` gives the same result (status, indices, order) at every
key before and after. -/
theorem C16_optimize_frame (t : LshTable) (k : BucketKey) :
    t.optimize.getBucketFromKey k = t.getBucketFromKey k ∧
      t.exec .optimize = .ok t ∧ t.optimize.storedKeys = t.storedKeys ∧
      t.optimize.usedMemory = t.usedMemory :=
  ⟨rfl, rfl, rfl, rfl⟩

/-- C17, determinism of the key: however many calls of `add`, batch `add`, `optimize` and
`getBucketFromKey` run between two key computations, the projection parameters (matrix, bias,
`W`, `M`, `D`) are the same before and after, the key of a feature is the same before and
after, and any table with the same projection parameters computes the same key for the
feature. -/
theorem C17_key_determinism (t t' : LshTable) (calls : List Call) (v : List ℚ)
    (h : t.run calls = .ok t') :
    t'.params = t.params ∧ t'.getKey v = t.getKey v ∧ t'.computeKey v = t.computeKey v ∧
      ∀ t₂ : LshTable, t₂.params = t.params →
        t₂.getKey v = t.getKey v ∧ t₂.computeKey v = t.computeKey v := by
  have hp : t'.params = t.params :=
    run_inv (fun s => s.params = t.params)
      (fun s s' i w hs hadd => (add_params s s' i w hadd).1.trans hs) calls t t' rfl h
  exact ⟨hp, (computeKey_of_params t' t v hp).1, (computeKey_of_params t' t v hp).2,
    fun t₂ h₂ => computeKey_of_params t₂ t v h₂⟩

theorem C17_key_determinism_witness :
    sampleFilled.params = sampleTable.params ∧
      sampleFilled.getKey [1000, 0, 2000, 0] = sampleTable.getKey [1000, 0, 2000, 0] ∧
      sampleFilled.computeKey [1000, 0, 2000, 0] = sampleTable.computeKey [1000, 0, 2000, 0] ∧
      ∀ t₂ : LshTable, t₂.params = sampleTable.params →
        t₂.getKey [1000, 0, 2000, 0] = sampleTable.getKey [1000, 0, 2000, 0] ∧
        t₂.computeKey [1000, 0, 2000, 0] = sampleTable.computeKey [1000, 0, 2000, 0] :=
  C17_key_determinism sampleTable sampleFilled sampleRun [1000, 0, 2000, 0] (by decide!)

/-- C18, `usedMemory()` is the number of stored buckets: it is 0 on a table that the float
constructor returned; after any sequence of calls `add(i_t, v_t)` with features of at least `D`
floats every call has a key and `usedMemory()` is the number of distinct keys among them; and a
further `add` whose key is already stored returns and leaves `usedMemory()` as it was. -/
theorem C18_usedMemory (D M : Nat) (gen : RandomSource) (t₀ : LshTable)
    (calls : List (FeatureIndex × List ℚ)) (h0 : construct D M gen = .ok t₀)
    (hlen : ∀ c ∈ calls, D ≤ c.2.length) :
    t₀.usedMemory = 0 ∧
    ∃ t, t₀.addAll calls = .ok t ∧
      (t₀.keysOf calls).length = calls.length ∧
      t.usedMemory = (t₀.keysOf calls).dedup.length ∧
      ∀ i v key, t.computeKey v = .ok key → key ∈ t.storedKeys →
        ∃ t', t.add i v = .ok t' ∧ t'.usedMemory = t.usedMemory := by
  obtain ⟨t, ht⟩ := addAll_fresh D M gen t₀ calls h0 hlen
  obtain ⟨hs, he, _, hD, _, _, _, _, hr⟩ := construct_ok D M gen t₀ h0
  obtain ⟨_, hs', _, _⟩ := addAll_inv calls t₀ t ht
  have hum : ∀ s : LshTable, s.usedMemory = s.storedKeys.length := by
    intro s
    simp [usedMemory, BucketsSpace.size, storedKeys]
  refine ⟨by simp [usedMemory, BucketsSpace.size, he], t, ht, ?_, ?_, ?_⟩
  · apply keysOf_length
    intro c hc
    exact computeKey_total t₀ c.2 hr (by rw [hD]; exact hlen c hc)
  · rw [hum, (storedKeys_perm t₀ t calls he ht).length_eq]
  · intro i v key hk hmem
    have hadd := add_ok t i v key (hs'.trans hs) hk
    refine ⟨_, hadd, ?_⟩
    rw [hum, hum, (add_storedKeys t _ i v key hadd hk).1 hmem]

theorem C18_usedMemory_witness :
    sampleTable.usedMemory = 0 ∧
    ∃ t, sampleTable.addAll sampleCalls = .ok t ∧
      (sampleTable.keysOf sampleCalls).length = sampleCalls.length ∧
      t.usedMemory = (sampleTable.keysOf sampleCalls).dedup.length ∧
      ∀ i v key, t.computeKey v = .ok key → key ∈ t.storedKeys →
        ∃ t', t.add i v = .ok t' ∧ t'.usedMemory = t.usedMemory :=
  C18_usedMemory 4 2 sampleGen sampleTable sampleCalls (by decide) (by decide)

/-- C19, unsupported element types fail fast: at every element type other than `float`, the
constructor with `(feature_size, key_size)` ends in the bare `throw;` for all arguments and
`getKey` ends in the bare `throw;` for every feature; neither returns a table or a key. -/
theorem C19_unsupported_types (E : ElementType) (hE : E ≠ .float) (feature_size key_size : Nat)
    (gen : RandomSource) (t : LshTable) (feature : List ℚ) :
    E.construct feature_size key_size gen = .error .terminate ∧
      E.getKey t feature = .error .terminate ∧
      (∀ t', E.construct feature_size key_size gen ≠ .ok t') ∧
      ∀ key, E.getKey t feature ≠ .ok key := by
  cases E with
  | float => exact absurd rfl hE
  | unsigned_char =>
    refine ⟨rfl, rfl, ?_, ?_⟩ <;> intro _ h <;> cases h
  | other name =>
    refine ⟨rfl, rfl, ?_, ?_⟩ <;> intro _ h <;> cases h

theorem C19_unsupported_types_witness :
    ElementType.unsigned_char.construct 4 2 sampleGen = .error .terminate ∧
      ElementType.unsigned_char.getKey sampleTable [0, 0, 0, 0] = .error .terminate ∧
      (∀ t', ElementType.unsigned_char.construct 4 2 sampleGen ≠ .ok t') ∧
      ∀ key, ElementType.unsigned_char.getKey sampleTable [0, 0, 0, 0] ≠ .ok key :=
  C19_unsupported_types .unsigned_char (by decide) 4 2 sampleGen sampleTable [0, 0, 0, 0]

/-- C20, the key-shape invariant: in every state reached from `construct(D, M)` through calls
of `add`, batch `add`, `optimize` and `getBucketFromKey` that returned, `key_size_` is the `M`
given at construction and every key stored in the bucket map has exactly `M` components. -/
theorem C20_key_shape (D M : Nat) (gen : RandomSource) (t₀ t : LshTable) (calls : List Call)
    (h0 : construct D M gen = .ok t₀) (hrun : t₀.run calls = .ok t) :
    t.key_size_ = M ∧ ∀ k ∈ t.storedKeys, k.length = M := by
  obtain ⟨_, he, hM, _⟩ := construct_ok D M gen t₀ h0
  exact run_inv (fun s => s.key_size_ = M ∧ ∀ k ∈ s.storedKeys, k.length = M)
    (fun s s' i v hs hadd => add_shape M s s' i v hs hadd) calls t₀ t
    ⟨hM, by simp [storedKeys, he]⟩ hrun

theorem C20_key_shape_witness :
    sampleFilled.key_size_ = 2 ∧ ∀ k ∈ sampleFilled.storedKeys, k.length = 2 :=
  C20_key_shape 4 2 sampleGen sampleTable sampleFilled sampleRun (by decide) (by decide!)

/-- C22, the plain-map policy is an invariant: in every state reached from the float
constructor through calls of `add`, batch `add`, `optimize` and `getBucketFromKey` that
returned, `speed_level_` is `kHash`; on such a table `getBucketFromKey` returns what `find`
gives at every key and `add` returns or faults by a read out of range, and neither ends in the
bare `throw;` of the `kArray` and `kBitsetHash` branches. -/
theorem C22_plain_map_invariant (D M : Nat) (gen : RandomSource) (t₀ t : LshTable)
    (calls : List Call) (h0 : construct D M gen = .ok t₀) (hrun : t₀.run calls = .ok t) :
    t.speed_level_ = .kHash ∧
      (∀ k, t.getBucketFromKey k = .ok (t.buckets_space_.find k)) ∧
      (∀ k, t.getBucketFromKey k ≠ .error .terminate) ∧
      ∀ i v, t.add i v ≠ .error .terminate := by
  obtain ⟨hs0, _⟩ := construct_ok D M gen t₀ h0
  have hs : t.speed_level_ = .kHash :=
    run_inv (fun s => s.speed_level_ = .kHash)
      (fun s s' i w hI hadd => (add_params s s' i w hadd).2.trans hI) calls t₀ t hs0 hrun
  have hget : ∀ k, t.getBucketFromKey k = .ok (t.buckets_space_.find k) := by
    intro k
    simp only [getBucketFromKey, hs]
  refine ⟨hs, hget, ?_, ?_⟩
  · intro k h
    rw [hget k] at h
    cases h
  · intro i v h
    cases hk : t.computeKey v with
    | error e =>
      have he := computeKey_error t v e hk
      simp only [add, hk, bind, Except.bind] at h
      cases h
      cases he
    | ok key =>
      rw [add_ok t i v key hs hk] at h
      cases h

theorem C22_plain_map_invariant_witness :
    sampleFilled.speed_level_ = .kHash ∧
      (∀ k, sampleFilled.getBucketFromKey k = .ok (sampleFilled.buckets_space_.find k)) ∧
      (∀ k, sampleFilled.getBucketFromKey k ≠ .error .terminate) ∧
      ∀ i v, sampleFilled.add i v ≠ .error .terminate :=
  C22_plain_map_invariant 4 2 sampleGen sampleTable sampleFilled sampleRun (by decide)
    (by decide!)

/-- C24, the overload `add(value, feature, vec_len)` inserts nothing: it returns when the key
can be computed and faults as the key computation does; when it has returned, the table is the
table of before the call, so `getBucketFromKey` gives the same result at every key, the bucket
map and `usedMemory()` are unchanged and `value` is in no bucket it was not in. -/
theorem C24_add_vec_len_frame (t : LshTable) (value : FeatureIndex) (feature : List ℚ)
    (vec_len : Nat) :
    (∀ key, t.computeKey feature = .ok key →
      t.add_vec_len value feature vec_len = .ok t) ∧
    (∀ e, t.computeKey feature = .error e →
      t.add_vec_len value feature vec_len = .error e) ∧
    ∀ t', t.add_vec_len value feature vec_len = .ok t' →
      t' = t ∧ t'.buckets_space_ = t.buckets_space_ ∧
      (∀ k, t'.getBucketFromKey k = t.getBucketFromKey k) ∧
      t'.usedMemory = t.usedMemory := by
  refine ⟨?_, ?_, ?_⟩
  · intro key hk
    simp only [add_vec_len, hk, bind, Except.bind]
    rfl
  · intro e hk
    simp only [add_vec_len, hk, bind, Except.bind]
  · intro t' h
    cases hk : t.computeKey feature with
    | error e => simp only [add_vec_len, hk, bind, Except.bind] at h; cases h
    | ok key =>
      simp only [add_vec_len, hk, bind, Except.bind, pure, Except.pure, Except.ok.injEq] at h
      subst h
      exact ⟨rfl, rfl, fun _ => rfl, rfl⟩

theorem C24_add_vec_len_frame_witness :
    sampleTable.add_vec_len 10 [0, 0, 0, 0] 4 = .ok sampleTable ∧
      (sampleTable = sampleTable ∧ sampleTable.buckets_space_ = sampleTable.buckets_space_ ∧
        (∀ k, sampleTable.getBucketFromKey k = sampleTable.getBucketFromKey k) ∧
        sampleTable.usedMemory = sampleTable.usedMemory) ∧
      sampleTable.add_vec_len 10 [0, 0, 0] 4 = .error .outOfRange :=
  ⟨(C24_add_vec_len_frame sampleTable 10 [0, 0, 0, 0] 4).1 [0, 0] (by decide!),
    (C24_add_vec_len_frame sampleTable 10 [0, 0, 0, 0] 4).2.2 sampleTable (by decide!),
    (C24_add_vec_len_frame sampleTable 10 [0, 0, 0] 4).2.1 .outOfRange (by decide!)⟩

/-- C25, no stored bucket is empty: in every state reached from the float constructor through
calls of `add`, batch `add`, `optimize` and `getBucketFromKey` that returned, every pair of the
bucket map has a bucket with at least one index, `getBucketFromKey` never returns a
found-but-empty bucket, and the number of stored buckets is the number of non-empty
buckets. -/
theorem C25_no_empty_bucket (D M : Nat) (gen : RandomSource) (t₀ t : LshTable)
    (calls : List Call) (h0 : construct D M gen = .ok t₀) (hrun : t₀.run calls = .ok t) :
    (∀ p ∈ t.buckets_space_, p.2 ≠ []) ∧
      (∀ k, t.getBucketFromKey k ≠ .ok (some [])) ∧
      t.usedMemory = (t.buckets_space_.filter fun p => !p.2.isEmpty).length := by
  obtain ⟨hs0, he, _⟩ := construct_ok D M gen t₀ h0
  have hne : ∀ p ∈ t.buckets_space_, p.2 ≠ [] :=
    run_inv (fun s => ∀ p ∈ s.buckets_space_, p.2 ≠ [])
      (fun s s' i w hI hadd => add_nonempty s s' i w hI hadd) calls t₀ t
      (by intro p hp; rw [he] at hp; cases hp) hrun
  have hs : t.speed_level_ = .kHash :=
    run_inv (fun s => s.speed_level_ = .kHash)
      (fun s s' i w hI hadd => (add_params s s' i w hadd).2.trans hI) calls t₀ t hs0 hrun
  refine ⟨hne, ?_, ?_⟩
  · intro k h
    simp only [getBucketFromKey, hs, Except.ok.injEq] at h
    exact hne _ (mem_of_find k [] _ h) rfl
  · have hall : (t.buckets_space_.filter fun p => !p.2.isEmpty) = t.buckets_space_ := by
      rw [List.filter_eq_self]
      intro p hp
      have := hne p hp
      cases hb : p.2 with
      | nil => exact absurd hb this
      | cons a as => rfl
    rw [hall]
    rfl

theorem C25_no_empty_bucket_witness :
    (∀ p ∈ sampleFilled.buckets_space_, p.2 ≠ []) ∧
      (∀ k, sampleFilled.getBucketFromKey k ≠ .ok (some [])) ∧
      sampleFilled.usedMemory =
        (sampleFilled.buckets_space_.filter fun p => !p.2.isEmpty).length :=
  C25_no_empty_bucket 4 2 sampleGen sampleTable sampleFilled sampleRun (by decide)
    (by decide!)

/-- C23 fails on one query with one neighbour: the query is the point 0, the true neighbour
the point 1 and the retrieved neighbour the point 2, so the true-neighbour distance is not 0
and the ratio of the L2 distances is 2 / 1; `Evluation_Error_ratio` returns 4, the ratio of the
squared distances, and not the average of the ratio of the L2 distances. -/
theorem C23_error_ratio_counterexample :
    squaredDistance lineDataset lineQuery (lineTruth.valueAt 0 0) 0 ≠ 0 ∧
    Evluation_Error_ratio lineTruth lineResult 1 lineDataset lineQuery = .ok 4 ∧
    IsL2Distance lineDataset lineQuery (resultIndex lineResult 0 0) 0 2 ∧
    IsL2Distance lineDataset lineQuery (lineTruth.valueAt 0 0) 0 1 ∧
    ∀ dr dt : ℚ, IsL2Distance lineDataset lineQuery (resultIndex lineResult 0 0) 0 dr →
      IsL2Distance lineDataset lineQuery (lineTruth.valueAt 0 0) 0 dt →
      Evluation_Error_ratio lineTruth lineResult 1 lineDataset lineQuery
        ≠ .ok (dr / dt / 1 / 1) := by
  have hr : squaredDistance lineDataset lineQuery (resultIndex lineResult 0 0) 0 = 4 := by
    decide!
  have ht : squaredDistance lineDataset lineQuery (lineTruth.valueAt 0 0) 0 = 1 := by
    decide!
  have hcode : Evluation_Error_ratio lineTruth lineResult 1 lineDataset lineQuery = .ok 4 := by
    decide!
  refine ⟨by rw [ht]; norm_num, hcode, ⟨by norm_num, by rw [hr]; norm_num⟩,
    ⟨by norm_num, by rw [ht]; norm_num⟩, ?_⟩
  intro dr dt hdr hdt h
  rw [hcode] at h
  obtain ⟨hr0, hr2⟩ := hdr
  obtain ⟨ht0, ht2⟩ := hdt
  rw [hr] at hr2
  rw [ht] at ht2
  have hdr2 : dr = 2 := by nlinarith
  have hdt1 : dt = 1 := by nlinarith
  rw [hdr2, hdt1] at h
  have h4 : (4 : ℚ) = 2 / 1 / 1 / 1 := Except.ok.inj h
  norm_num at h4

/-- C23 as amended: when every read is in range and no true-neighbour distance is 0,
`Evluation_Error_ratio` returns, in exact arithmetic, the average over the queries
`i < truth.rows` and the ranks `j < nn` of the squared L2 distance from query `i` to the
retrieved neighbour divided by the squared L2 distance from query `i` to the true neighbour:
the distances are sums of squared coordinate differences, without a square root.  A stored
result `-842150451` counts as the index 0. -/
theorem C23_error_ratio_squared (truth result : IntMatrix) (nn : Int) (dataset query : Matrix)
    (h : EvalInRange truth result nn dataset query)
    (_hnz : ∀ i, i < truth.rows → ∀ j, j < nn.toNat →
      squaredDistance dataset query (truth.valueAt i j) i ≠ 0) :
    Evluation_Error_ratio truth result nn dataset query =
        .ok (averageSquaredRatio truth result nn dataset query) ∧
      ∀ index i d, IsL2Distance dataset query index i d →
        squaredDistance dataset query index i = d * d :=
  ⟨Evluation_Error_ratio_eq truth result nn dataset query h, fun _ _ _ hd => hd.2.symm⟩

theorem C23_error_ratio_squared_witness :
    Evluation_Error_ratio lineTruth lineResult 1 lineDataset lineQuery =
        .ok (averageSquaredRatio lineTruth lineResult 1 lineDataset lineQuery) ∧
      ∀ index i d, IsL2Distance lineDataset lineQuery index i d →
        squaredDistance lineDataset lineQuery index i = d * d :=
  C23_error_ratio_squared lineTruth lineResult 1 lineDataset lineQuery
    (by unfold EvalInRange Matrix.InRangeAt; decide)
    (by
      intro i hi j hj
      have hi0 : i = 0 := by simpa [lineTruth] using hi
      have hj0 : j = 0 := by simpa using hj
      subst hi0 hj0
      decide!)

end lsh
end flann




